import Mathlib

/-!
Verification of the sorting-visualization core of the Algo repository.

The definitions below are a shallow embedding of the Rust sources:
  * `src/native/src/engine.rs`      — `Action`, `ActionKind`, `BarState`, `Engine`
  * `src/native/src/algorithms/bubble.rs` — `bubble_sort_actions`
  * `src/native/src/algorithms/merge.rs`  — `merge_sort_actions`,
    `parallel_merge_sort_actions`, `interleave_actions`

Rust `u32` values and `usize` counters are modelled as `Nat` (no claim
depends on overflow; values are in `[1, 1000]`).  Rust vectors are
modelled as `List`, and in-bounds indexing `arr[i]` as `List.getD i 0`
(all uses are in bounds).  `f32` time accumulators are modelled as `ℚ`
(no claim depends on rounding).  The RNG in `Engine::new` is external
nondeterminism; the drawn values are taken as a parameter.
-/

namespace Algo

/-- `ActionKind`, from `engine.rs`. -/
inductive ActionKind where
  | compare
  | swap
  | write
  | tempPush
  | tempClear
  | mergePhase
  | done
deriving DecidableEq

/-- `Action`, from `engine.rs`. -/
structure Action where
  kind : ActionKind
  i : Nat
  j : Nat
  value : Nat
  memory : Nat
  temp_idx : Nat
  thread_id : Nat
deriving DecidableEq

/-- The `Done` action pushed by `merge_sort_actions` / `parallel_merge_sort_actions`. -/
def doneAction : Action := ⟨.done, 0, 0, 0, 0, 0, 0⟩

/-- `arr[a..b].to_vec()`: the sub-list of positions `[a, b)`. -/
def slice (l : List Nat) (a b : Nat) : List Nat := (l.drop a).take (b - a)

/-- Replace positions `[a, b)` of `l` by `xs` (used for `copy_from_slice`
and for describing the effect of in-place segment writes). -/
def splice (l : List Nat) (a b : Nat) (xs : List Nat) : List Nat :=
  l.take a ++ xs ++ l.drop b

/-- `Vec::swap(i, j)` on a list of values. -/
def swapL (l : List Nat) (i j : Nat) : List Nat :=
  (l.set i (l.getD j 0)).set j (l.getD i 0)

/-! ## Merge-sort generators (`merge.rs`)

`merge` (sequential), `parallel_merge_chunk` and `parallel_merge` in
`merge.rs` are textually identical up to (a) the global index offset
added to the emitted action indices (`parallel_merge_chunk` only) and
(b) whether the scratch vector stores `(value, source_index)` pairs or
bare values (the source index is never read).  They are embedded once,
as `mergeAux` with an `off`set parameter, instantiated below. -/

/-- Result of the head-to-head while loop of `merge`:
emitted actions, the values pushed to `temp`, and the final `i`, `j`. -/
structure MergeLoopOut where
  acts : List Action
  temp : List Nat
  iEnd : Nat
  jEnd : Nat
deriving DecidableEq

/-- The first loop of `merge`: `while i < mid && j < right` — emit a
`Compare`, then push the smaller head (ties to the left run) to `temp`
with a `TempPush`. -/
def mergeLoopBoth (arr : List Nat) (mid right i j tidx mem tid off : Nat) :
    MergeLoopOut :=
  if _h : i < mid ∧ j < right then
    let cmp : Action := ⟨.compare, off + i, off + j, 0, mem, 0, tid⟩
    if arr.getD i 0 ≤ arr.getD j 0 then
      let push : Action := ⟨.tempPush, off + i, 0, arr.getD i 0, mem, tidx, tid⟩
      let r := mergeLoopBoth arr mid right (i + 1) j (tidx + 1) mem tid off
      ⟨cmp :: push :: r.acts, arr.getD i 0 :: r.temp, r.iEnd, r.jEnd⟩
    else
      let push : Action := ⟨.tempPush, off + j, 0, arr.getD j 0, mem, tidx, tid⟩
      let r := mergeLoopBoth arr mid right i (j + 1) (tidx + 1) mem tid off
      ⟨cmp :: push :: r.acts, arr.getD j 0 :: r.temp, r.iEnd, r.jEnd⟩
  else ⟨[], [], i, j⟩
termination_by (mid - i) + (right - j)
decreasing_by all_goals omega

/-- Actions plus pushed values of a drain loop. -/
structure DrainOut where
  acts : List Action
  temp : List Nat
deriving DecidableEq

/-- The drain loops of `merge`: `while i < stop` — push the rest of a
run to `temp` (no `Compare`). -/
def drainLoop (arr : List Nat) (stop i tidx mem tid off : Nat) : DrainOut :=
  if _h : i < stop then
    let push : Action := ⟨.tempPush, off + i, 0, arr.getD i 0, mem, tidx, tid⟩
    let r := drainLoop arr stop (i + 1) (tidx + 1) mem tid off
    ⟨push :: r.acts, arr.getD i 0 :: r.temp⟩
  else ⟨[], []⟩
termination_by stop - i
decreasing_by omega

/-- Actions plus resulting array of a write-back loop. -/
structure WbOut where
  acts : List Action
  arr : List Nat
deriving DecidableEq

/-- The write-back loop of `merge`: for each scratch element in FIFO
order, store it at `pos` (action index `off + pos`) and emit a `Write`. -/
def writeBack (arr : List Nat) (pos : Nat) (temp : List Nat) (mem tid off : Nat) :
    WbOut :=
  match temp with
  | [] => ⟨[], arr⟩
  | v :: vs =>
    let a : Action := ⟨.write, off + pos, 0, v, mem, 0, tid⟩
    let r := writeBack (arr.set pos v) (pos + 1) vs mem tid off
    ⟨a :: r.acts, r.arr⟩

/-- Actions, resulting array and resulting memory counter of a
generator step. -/
structure GenOut where
  acts : List Action
  arr : List Nat
  mem : Nat
deriving DecidableEq

/-- `merge` / `parallel_merge_chunk` / `parallel_merge` from `merge.rs`:
allocate `temp_bytes = (right - left) * 4`, run the three push loops,
write the scratch back to `[left, right)`, emit one `TempClear`, free
the scratch. -/
def mergeAux (arr : List Nat) (left mid right off mem tid : Nat) : GenOut :=
  let temp_bytes := (right - left) * 4
  let mem1 := mem + temp_bytes
  let r1 := mergeLoopBoth arr mid right left mid 0 mem1 tid off
  let r2 := drainLoop arr mid r1.iEnd r1.temp.length mem1 tid off
  let r3 := drainLoop arr right r1.jEnd (r1.temp.length + r2.temp.length) mem1 tid off
  let temp := r1.temp ++ r2.temp ++ r3.temp
  let r4 := writeBack arr left temp mem1 tid off
  let clearA : Action := ⟨.tempClear, 0, 0, 0, mem1, 0, tid⟩
  ⟨r1.acts ++ r2.acts ++ r3.acts ++ r4.acts ++ [clearA], r4.arr, mem1 - temp_bytes⟩

/-- `merge_sort_recursive` / `parallel_merge_sort_chunk_recursive`:
top-down recursion on `[left, right)`, `mid = left + (right - left) / 2`. -/
def mergeSortRec (arr : List Nat) (left right off mem tid : Nat) : GenOut :=
  if _h : right - left ≤ 1 then ⟨[], arr, mem⟩
  else
    let mid := left + (right - left) / 2
    let g1 := mergeSortRec arr left mid off mem tid
    let g2 := mergeSortRec g1.arr mid right off g1.mem tid
    let g3 := mergeAux g2.arr left mid right off g2.mem tid
    ⟨g1.acts ++ g2.acts ++ g3.acts, g3.arr, g3.mem⟩
termination_by right - left
decreasing_by all_goals omega

/-- `merge_sort_actions` from `merge.rs`: recursive sort, then one `Done`. -/
def merge_sort_actions (values : List Nat) : List Action :=
  (mergeSortRec values 0 values.length 0 0 0).acts ++ [doneAction]

/-! ## Bubble generator (`bubble.rs`) -/

/-- The inner loop of `bubble_sort_actions`:
`for j in 0..(n - 1 - i)` — emit `Compare(j, j+1)`, and when
`arr[j] > arr[j+1]`, swap and emit `Swap(j, j+1)`. -/
def bubbleInner (arr : List Nat) (j stop : Nat) : WbOut :=
  if _h : j < stop then
    let cmp : Action := ⟨.compare, j, j + 1, 0, 0, 0, 0⟩
    if arr.getD j 0 > arr.getD (j + 1) 0 then
      let sw : Action := ⟨.swap, j, j + 1, 0, 0, 0, 0⟩
      let r := bubbleInner (swapL arr j (j + 1)) (j + 1) stop
      ⟨cmp :: sw :: r.acts, r.arr⟩
    else
      let r := bubbleInner arr (j + 1) stop
      ⟨cmp :: r.acts, r.arr⟩
  else ⟨[], arr⟩
termination_by stop - j
decreasing_by all_goals omega

/-- The outer loop of `bubble_sort_actions`: after each pass it pushes a
`Done` action carrying the settled position `n - 1 - i` and its value. -/
def bubbleOuter (arr : List Nat) (i n : Nat) : WbOut :=
  if _h : i < n then
    let r := bubbleInner arr 0 (n - 1 - i)
    let d : Action := ⟨.done, n - 1 - i, n - 1 - i, r.arr.getD (n - 1 - i) 0, 0, 0, 0⟩
    let r2 := bubbleOuter r.arr (i + 1) n
    ⟨r.acts ++ d :: r2.acts, r2.arr⟩
  else ⟨[], arr⟩
termination_by n - i
decreasing_by omega

/-- `bubble_sort_actions` from `bubble.rs`. -/
def bubble_sort_actions (values : List Nat) : List Action :=
  (bubbleOuter values 0 values.length).acts

/-! ## Interleaver (`merge.rs`) -/

/-- `interleave_actions` from `merge.rs`: round-robin merge — each round
takes the next unconsumed element of every non-exhausted log, visiting
logs in index order, until all logs are exhausted. -/
def interleave_actions {α : Type} (thread_actions : List (List α)) : List α :=
  if h : thread_actions.all List.isEmpty then []
  else
    (thread_actions.filterMap List.head?) ++
      interleave_actions (thread_actions.map List.tail)
termination_by (thread_actions.map List.length).sum
decreasing_by
  simp only [List.all_eq_true, Bool.not_eq_true] at h
  clear * - h
  induction thread_actions with
  | nil => simp at h
  | cons l ls ih =>
    simp only [List.map_cons, List.sum_cons]
    by_cases hl : l = []
    · subst hl
      have hls : ¬ ∀ x ∈ ls, x.isEmpty := by
        intro hc
        exact h (by simpa using fun x hx => by simpa using hc x hx)
      have := ih hls
      simpa using this
    · have h1 : l.tail.length < l.length := by
        cases l with
        | nil => exact absurd rfl hl
        | cons a as => simp
      have h2 : ((ls.map List.tail).map List.length).sum ≤ (ls.map List.length).sum := by
        clear * -
        induction ls with
        | nil => simp
        | cons m ms ihm =>
          simp only [List.map_cons, List.sum_cons]
          have : m.tail.length ≤ m.length := by
            cases m <;> simp
          omega
      omega

/-! ## Parallel merge generator (`merge.rs`) -/

/-- Phase 1 of `parallel_merge_sort_actions`: `for thread_id in 0..num_threads`,
sort the chunk `[start, end)` (a copy, with action indices offset by
`start`), copy it back, and collect the per-thread log. -/
def chunkLoop (arr : List Nat) (n cs tid T : Nat) : List (List Action) × List Nat :=
  if _h : tid < T then
    let start := tid * cs
    if start ≥ n then
      let r := chunkLoop arr n cs (tid + 1) T
      ([] :: r.1, r.2)
    else
      let en := min (start + cs) n
      let chunk := slice arr start en
      let g := mergeSortRec chunk 0 chunk.length start 0 tid
      let r := chunkLoop (splice arr start en g.arr) n cs (tid + 1) T
      (g.acts :: r.1, r.2)
  else ([], arr)
termination_by T - tid
decreasing_by all_goals omega

/-- Inner loop of phase 2 of `parallel_merge_sort_actions`:
`while left < n` — merge `arr[left..mid]` with `arr[mid..right]`
(round-robin thread id `tcount % T`) whenever `mid < right`. -/
def phase2Inner (arr : List Nat) (n step left tcount T : Nat) (hs : 0 < step) :
    List (List Action) × List Nat :=
  if _h : left < n then
    let mid := min (left + step) n
    let right := min (left + 2 * step) n
    if mid < right then
      let g := mergeAux arr left mid right 0 0 (tcount % T)
      let r := phase2Inner g.arr n step (left + 2 * step) (tcount + 1) T hs
      (g.acts :: r.1, r.2)
    else
      phase2Inner arr n step (left + 2 * step) tcount T hs
  else ([], arr)
termination_by n - left
decreasing_by all_goals omega

/-- Outer loop of phase 2 of `parallel_merge_sort_actions`:
`while step < n` — emit one `MergePhase` carrying the level, run the
round's merges, interleave their logs, double `step`. -/
def phase2Outer (arr : List Nat) (n step level T : Nat) (hs : 0 < step) :
    List Action × List Nat :=
  if _h : step < n then
    let mp : Action := ⟨.mergePhase, 0, 0, level, 0, 0, 0⟩
    let r := phase2Inner arr n step 0 0 T hs
    let r2 := phase2Outer r.2 n (step * 2) (level + 1) T (by omega)
    (mp :: (interleave_actions r.1 ++ r2.1), r2.2)
  else ([], arr)
termination_by n - step
decreasing_by omega

/-- `parallel_merge_sort_actions` from `merge.rs`: clamp the thread
count to `[1, n]`, chunk size `⌈n / T⌉`, sort chunks, interleave,
tournament-merge, one final `Done`. -/
def parallel_merge_sort_actions (values : List Nat) (num_threads : Nat) : List Action :=
  let n := values.length
  if _hn : n = 0 then [doneAction]
  else
    let T := max (min num_threads n) 1
    let cs := (n + T - 1) / T
    let c := chunkLoop values n cs 0 T
    let p2 := phase2Outer c.2 n cs 1 T (by
      have hT : 0 < T := le_max_right _ 1
      have : 1 * T ≤ n + T - 1 := by omega
      exact (Nat.le_div_iff_mul_le hT).mpr this)
    interleave_actions c.1 ++ p2.1 ++ [doneAction]

/-! ## Replay of an ActionLog against a value sequence

This is the replay semantics named by the spec's testable properties:
`Swap` exchanges positions `i` and `j`, `Write` stores the carried
value at index `i`, every other kind leaves the values unchanged. -/

/-- Apply one action to a value sequence. -/
def applyAction (l : List Nat) (a : Action) : List Nat :=
  match a.kind with
  | .swap => swapL l a.i a.j
  | .write => l.set a.i a.value
  | _ => l

/-- Replay a whole log against a copy of the input. -/
def replay (acts : List Action) (l : List Nat) : List Nat :=
  acts.foldl applyAction l

/-! ## Replay Engine (`engine.rs`) -/

/-- `SortMode`, from `engine.rs`. -/
inductive SortMode where
  | sequential
  | parallel
deriving DecidableEq

/-- `BarState`, from `engine.rs`. -/
inductive BarState where
  | idle
  | compare
  | swap
  | sorted
  | source
  | tempArray
  | thread0
  | thread1
  | thread2
  | thread3
  | thread4
  | thread5
  | thread6
  | thread7
deriving DecidableEq

/-- `BarState::from_thread_id`. -/
def BarState.from_thread_id (thread_id : Nat) : BarState :=
  match thread_id with
  | 0 => .thread0
  | 1 => .thread1
  | 2 => .thread2
  | 3 => .thread3
  | 4 => .thread4
  | 5 => .thread5
  | 6 => .thread6
  | 7 => .thread7
  | _ => .thread0

/-- `Bar`, from `engine.rs`. -/
structure Bar where
  value : Nat
  state : BarState
deriving DecidableEq

/-- `AnimationInfo`, from `engine.rs` (`source_height : f32` is modelled
as `ℚ`; no claim depends on it). -/
structure AnimationInfo where
  active : Bool
  source_idx : Nat
  target_idx : Nat
  source_height : ℚ
  is_temp_push : Bool
  temp_target_idx : Nat
  thread_id : Nat
deriving DecidableEq

/-- `AnimationInfo::default()`. -/
def AnimationInfo.default : AnimationInfo := ⟨false, 0, 0, 0, false, 0, 0⟩

/-- `TempArrayState`, from `engine.rs`. -/
structure TempArrayState where
  values : List Nat
  left_bound : Nat
  right_bound : Nat
deriving DecidableEq

/-- `TempArrayState::default()`. -/
def TempArrayState.default : TempArrayState := ⟨[], 0, 0⟩

/-- `MultiTempArrayState::total_memory`: 4 bytes per held value. -/
def total_memory (arrays : List TempArrayState) : Nat :=
  (arrays.map (fun a => a.values.length * 4)).sum

/-- The `Engine` struct from `engine.rs` (the RNG is omitted: drawn
values enter as parameters of the constructor model). -/
structure EngineState where
  bars : List Bar
  actions : List Action
  cursor : Nat
  max_value : Nat
  comparisons : Nat
  operations : Nat
  current_memory : Nat
  peak_memory : Nat
  time_elapsed : ℚ
  step_timer : ℚ
  step_delay : ℚ
  current_animation : AnimationInfo
  temp_array : TempArrayState
  multi_temp_arrays : List TempArrayState
  mode : SortMode
  num_threads : Nat
  initial_values : List Nat
  merge_level : Nat

/-- `Engine::mark`: set the bar's state unless it is `Sorted`
(a no-op when `idx` is out of bounds, like `get_mut` returning `None`). -/
def markBar (bars : List Bar) (idx : Nat) (st : BarState) : List Bar :=
  bars.set idx
    (let b := bars.getD idx ⟨0, .idle⟩
     if b.state ≠ .sorted then ⟨b.value, st⟩ else b)

/-- `self.bars.swap(i, j)` — swaps whole bars (value and state). -/
def swapBars (bars : List Bar) (i j : Nat) : List Bar :=
  (bars.set i (bars.getD j ⟨0, .idle⟩)).set j (bars.getD i ⟨0, .idle⟩)

/-- `arrays.get_mut(tid)` followed by an update — a no-op out of bounds. -/
def modifyTemp (arrays : List TempArrayState) (tid : Nat)
    (f : TempArrayState → TempArrayState) : List TempArrayState :=
  arrays.set tid (f (arrays.getD tid TempArrayState.default))

/-- The per-`kind` match of `Engine::step`, applied to the action at the
cursor; includes the `current_memory` update that precedes the match. -/
def engineApply (s : EngineState) (a : Action) : EngineState :=
  let s :=
    { s with
      current_memory :=
        if s.mode = SortMode.parallel then total_memory s.multi_temp_arrays else a.memory }
  match a.kind with
  | .compare =>
      let st :=
        if s.mode = SortMode.parallel then BarState.from_thread_id a.thread_id
        else BarState.compare
      { s with
        comparisons := s.comparisons + 1
        current_animation := { s.current_animation with active := false }
        bars := markBar (markBar s.bars a.i st) a.j st }
  | .swap =>
      let st :=
        if s.mode = SortMode.parallel then BarState.from_thread_id a.thread_id
        else BarState.swap
      { s with
        operations := s.operations + 1
        current_animation := { s.current_animation with active := false }
        bars := markBar (markBar (swapBars s.bars a.i a.j) a.i st) a.j st }
  | .tempPush =>
      let anim : AnimationInfo :=
        ⟨true, a.i, a.temp_idx, (a.value : ℚ) / (s.max_value : ℚ), true,
          a.temp_idx, a.thread_id⟩
      let s :=
        if s.mode = SortMode.parallel then
          let mta := modifyTemp s.multi_temp_arrays a.thread_id
              (fun t => { t with values := t.values ++ [a.value] })
          let cm := total_memory mta
          { s with
            multi_temp_arrays := mta
            current_memory := cm
            peak_memory := if cm > s.peak_memory then cm else s.peak_memory }
        else
          { s with temp_array :=
              { s.temp_array with values := s.temp_array.values ++ [a.value] } }
      let st :=
        if s.mode = SortMode.parallel then BarState.from_thread_id a.thread_id
        else BarState.source
      { s with
        current_animation := anim
        bars := markBar s.bars a.i st }
  | .write =>
      let anim : AnimationInfo :=
        ⟨true, a.temp_idx, a.i, (a.value : ℚ) / (s.max_value : ℚ), false,
          a.temp_idx, a.thread_id⟩
      let popFront : TempArrayState → TempArrayState := fun t =>
        if t.values ≠ [] then { t with values := t.values.tail } else t
      let s :=
        if s.mode = SortMode.parallel then
          { s with multi_temp_arrays := modifyTemp s.multi_temp_arrays a.thread_id popFront }
        else if s.temp_array.values ≠ [] then
          { s with temp_array := { s.temp_array with values := s.temp_array.values.tail } }
        else s
      let st :=
        if s.mode = SortMode.parallel then BarState.from_thread_id a.thread_id
        else BarState.swap
      { s with
        operations := s.operations + 1
        current_animation := anim
        bars := s.bars.set a.i ⟨a.value, st⟩ }
  | .tempClear =>
      let clearVals : TempArrayState → TempArrayState := fun t => { t with values := [] }
      let s :=
        if s.mode = SortMode.parallel then
          { s with multi_temp_arrays := modifyTemp s.multi_temp_arrays a.thread_id clearVals }
        else
          { s with temp_array := { s.temp_array with values := [] } }
      { s with current_animation := { s.current_animation with active := false } }
  | .mergePhase =>
      { s with
        merge_level := a.value
        current_animation := { s.current_animation with active := false } }
  | .done =>
      { s with
        current_memory := 0
        current_animation := { s.current_animation with active := false }
        temp_array := { s.temp_array with values := [] }
        multi_temp_arrays := s.multi_temp_arrays.map (fun t : TempArrayState => { t with values := [] })
        bars := s.bars.map (fun b => ⟨b.value, .sorted⟩) }

/-- The "clear transient states" pass of `Engine::step`: every bar not
`Sorted` reverts to `Idle`. -/
def clearTransient (bars : List Bar) : List Bar :=
  bars.map (fun b => if b.state ≠ .sorted then ⟨b.value, .idle⟩ else b)

/-- `Engine::step`. -/
def step (s : EngineState) (dt : ℚ) : EngineState :=
  if s.cursor ≥ s.actions.length then
    { s with bars := s.bars.map (fun b => ⟨b.value, .sorted⟩) }
  else
    let s := { s with
      time_elapsed := s.time_elapsed + dt
      step_timer := s.step_timer + dt }
    if s.step_timer < s.step_delay then s
    else
      let s := { s with step_timer := 0, bars := clearTransient s.bars }
      -- `self.actions[self.cursor]`; the branch guarantees in-bounds
      let a := s.actions.getD s.cursor doneAction
      { engineApply s a with cursor := s.cursor + 1 }

/-- A sequence of `Engine::step` calls. -/
def runSteps (s : EngineState) (dts : List ℚ) : EngineState :=
  dts.foldl step s

/-- `actions.iter().map(|a| a.memory).max().unwrap_or(0)`. -/
def maxMemory (acts : List Action) : Nat :=
  ((acts.map Action.memory).max?).getD 0

/-- `Engine::new(size)`, with the `size` random draws in `[1, 1000]`
supplied as `values` (the RNG is external nondeterminism). -/
def mkEngine (values : List Nat) : EngineState :=
  let actions := merge_sort_actions values
  { bars := values.map (fun v => ⟨v, .idle⟩)
    actions := actions
    cursor := 0
    max_value := (values.max?).getD 1
    comparisons := 0
    operations := 0
    current_memory := 0
    peak_memory := maxMemory actions
    time_elapsed := 0
    step_timer := 0
    step_delay := 1
    current_animation := AnimationInfo.default
    temp_array := TempArrayState.default
    multi_temp_arrays := List.replicate 8 TempArrayState.default
    mode := .sequential
    num_threads := 8
    initial_values := values
    merge_level := 0 }

/-- `Engine::regenerate_actions`. -/
def regenerate_actions (s : EngineState) : EngineState :=
  let actions :=
    match s.mode with
    | .sequential => merge_sort_actions s.initial_values
    | .parallel => parallel_merge_sort_actions s.initial_values s.num_threads
  { s with
    cursor := 0
    comparisons := 0
    operations := 0
    current_memory := 0
    time_elapsed := 0
    step_timer := 0
    current_animation := AnimationInfo.default
    temp_array := TempArrayState.default
    multi_temp_arrays := List.replicate s.num_threads TempArrayState.default
    merge_level := 0
    bars :=
      s.bars.zipWith (fun _ v => (⟨v, .idle⟩ : Bar)) s.initial_values ++
        s.bars.drop s.initial_values.length
    actions := actions
    peak_memory := maxMemory actions }

/-- `Engine::set_mode`. -/
def set_mode (s : EngineState) (mode : SortMode) : EngineState :=
  if s.mode ≠ mode then regenerate_actions { s with mode := mode } else s

/-- The engine right after `Engine::new` followed by
`set_mode(Parallel)`. -/
def mkEngineParallel (values : List Nat) : EngineState :=
  set_mode (mkEngine values) .parallel

/-- The multiset of values currently held by the bars. -/
def barsValues (s : EngineState) : Multiset Nat :=
  (s.bars.map Bar.value : List Nat)

/-- The multiset of values held across all temp regions (the sequential
region and the per-task regions). -/
def tempValues (s : EngineState) : Multiset Nat :=
  (s.temp_array.values : List Nat) +
    ((s.multi_temp_arrays.map TempArrayState.values).flatten : List Nat)

/-! ## Proof-support definitions

Characterization functions and predicates used to state and prove the
claims; these are not transcriptions of source functions. -/

/-- The boolean comparison `arr[i] <= arr[j]` used by every merge loop. -/
def natLe (a b : Nat) : Bool := decide (a ≤ b)

/-- Specification-side mergesort mirroring the recursion scheme of
`merge_sort_recursive` (`mid = left + (right - left) / 2`, i.e. the
first half has `⌊len / 2⌋` elements). -/
def msList (l : List Nat) : List Nat :=
  if _h : l.length ≤ 1 then l
  else
    List.merge (msList (l.take (l.length / 2))) (msList (l.drop (l.length / 2))) natLe
termination_by l.length
decreasing_by
  · simp only [List.length_take]; omega
  · simp only [List.length_drop]; omega

/-- Specification-side single bubble pass mirroring the inner loop of
`bubble_sort_actions` (swap adjacent elements when out of order). -/
def bubblePassL : List Nat → List Nat
  | [] => []
  | [x] => [x]
  | x :: y :: t => if x > y then y :: bubblePassL (x :: t) else x :: bubblePassL (y :: t)
termination_by l => l.length
decreasing_by all_goals simp

/-- `a` is a `Write` targeting index `i`. -/
def pw (i : Nat) (a : Action) : Bool := decide (a.kind = ActionKind.write ∧ a.i = i)

/-- The value carried by the last `Write` targeting index `i`, if any. -/
def lastWrite (acts : List Action) (i : Nat) : Option Nat :=
  ((acts.filter (pw i)).getLast?).map Action.value

/-- A log without `Swap` actions (all merge-generator logs). -/
def NoSwap (acts : List Action) : Prop := ∀ a ∈ acts, a.kind ≠ ActionKind.swap

/-- Every `Write` of the log targets an index in `[lo, hi)`. -/
def WritesWithin (acts : List Action) (lo hi : Nat) : Prop :=
  ∀ a ∈ acts, a.kind = ActionKind.write → lo ≤ a.i ∧ a.i < hi

/-- Two logs never write a common index. -/
def WDisj (L M : List Action) : Prop :=
  ∀ a ∈ L, ∀ b ∈ M, a.kind = ActionKind.write → b.kind = ActionKind.write →
    a.i ≠ b.i

/-- Tag every element of every log with the index of its log (used to
state order fidelity of the interleaver). -/
def tagLogs {α : Type} (ls : List (List α)) : List (List (Nat × α)) :=
  ls.enum.map (fun q => q.2.map (fun a => (q.1, a)))

/-- Number of actions of the given kind. -/
def countKind (k : ActionKind) (acts : List Action) : Nat :=
  acts.countP (fun a => decide (a.kind = k))

/-- Engine invariants maintained by `step` (used for the monotonicity
claims). -/
def EngineWF (s : EngineState) : Prop :=
  s.cursor ≤ s.actions.length ∧
  s.current_memory ≤ s.peak_memory ∧
  (∀ a ∈ s.actions, a.memory ≤ s.peak_memory) ∧
  total_memory s.multi_temp_arrays ≤ s.peak_memory

/-- The action log the sequential merge generator emits for `[5, 3]`
(established below by evaluation). -/
def c2acts : List Action :=
  [⟨.compare, 0, 1, 0, 8, 0, 0⟩, ⟨.tempPush, 1, 0, 3, 8, 0, 0⟩,
   ⟨.tempPush, 0, 0, 5, 8, 1, 0⟩, ⟨.write, 0, 0, 3, 8, 0, 0⟩,
   ⟨.write, 1, 0, 5, 8, 0, 0⟩, ⟨.tempClear, 0, 0, 0, 8, 0, 0⟩,
   ⟨.done, 0, 0, 0, 0, 0, 0⟩]

/-- A tiny sequential engine state whose next action is a `Write` while
the temp region is empty (used for the error-handling claims). -/
def c5E : EngineState :=
  { bars := [⟨5, .idle⟩]
    actions := [⟨.write, 0, 0, 7, 0, 0, 0⟩]
    cursor := 0
    max_value := 5
    comparisons := 0
    operations := 0
    current_memory := 0
    peak_memory := 0
    time_elapsed := 0
    step_timer := 0
    step_delay := 1
    current_animation := AnimationInfo.default
    temp_array := TempArrayState.default
    multi_temp_arrays := List.replicate 8 TempArrayState.default
    mode := .sequential
    num_threads := 8
    initial_values := [5]
    merge_level := 0 }

/-- `mkEngine [5, 3]`, written out (established below by evaluation). -/
def c2E0 : EngineState :=
  { bars := [⟨5, .idle⟩, ⟨3, .idle⟩]
    actions := c2acts
    cursor := 0
    max_value := 5
    comparisons := 0
    operations := 0
    current_memory := 0
    peak_memory := 8
    time_elapsed := 0
    step_timer := 0
    step_delay := 1
    current_animation := AnimationInfo.default
    temp_array := TempArrayState.default
    multi_temp_arrays := List.replicate 8 TempArrayState.default
    mode := .sequential
    num_threads := 8
    initial_values := [5, 3]
    merge_level := 0 }

/-- The state one full-interval step later: the `Compare(0, 1)` was
applied (established below by evaluation). -/
def c2E1 : EngineState :=
  { bars := [⟨5, .compare⟩, ⟨3, .compare⟩]
    actions := c2acts
    cursor := 1
    max_value := 5
    comparisons := 1
    operations := 0
    current_memory := 8
    peak_memory := 8
    time_elapsed := 1
    step_timer := 0
    step_delay := 1
    current_animation := AnimationInfo.default
    temp_array := TempArrayState.default
    multi_temp_arrays := List.replicate 8 TempArrayState.default
    mode := .sequential
    num_threads := 8
    initial_values := [5, 3]
    merge_level := 0 }

/-! # Theorems

## Segment algebra -/

theorem slice_length {l : List Nat} {a b : Nat} (hb : b ≤ l.length) :
    (slice l a b).length = b - a ∨ b ≤ a := by
  simp only [slice, List.length_take, List.length_drop]
  omega

theorem length_slice {l : List Nat} {a b : Nat} (hab : a ≤ b) (hb : b ≤ l.length) :
    (slice l a b).length = b - a := by
  simp only [slice, List.length_take, List.length_drop]
  omega

theorem slice_nil {l : List Nat} {a b : Nat} (h : b ≤ a) : slice l a b = [] := by
  simp [slice, Nat.sub_eq_zero_of_le h]

theorem slice_zero_length (l : List Nat) : slice l 0 l.length = l := by
  simp [slice]

theorem slice_cons {l : List Nat} {a b : Nat} (hab : a < b) (ha : a < l.length) :
    slice l a b = l.getD a 0 :: slice l (a + 1) b := by
  simp only [slice]
  rw [List.drop_eq_getElem_cons ha]
  have hba : b - a = (b - (a + 1)) + 1 := by omega
  rw [hba, List.take_succ_cons, List.getD_eq_getElem l 0 ha]

theorem splice_self {l : List Nat} {a b : Nat} (hab : a ≤ b) :
    splice l a b (slice l a b) = l := by
  have h1 : (l.drop a).drop (b - a) = l.drop b := by
    rw [List.drop_drop]; congr 1; omega
  simp only [splice, slice, List.append_assoc]
  rw [← h1, List.take_append_drop, List.take_append_drop]

theorem length_splice {l xs : List Nat} {a b : Nat} (hx : xs.length = b - a)
    (hab : a ≤ b) (hb : b ≤ l.length) : (splice l a b xs).length = l.length := by
  simp only [splice, List.length_append, List.length_take, List.length_drop]
  omega

theorem take_splice {l xs : List Nat} {a b : Nat} (ha : a ≤ l.length) :
    (splice l a b xs).take a = l.take a := by
  simp only [splice, List.append_assoc]
  rw [List.take_left']
  simp only [List.length_take]
  omega

theorem drop_splice {l xs : List Nat} {a b : Nat} (hx : xs.length = b - a)
    (hab : a ≤ b) (ha : a ≤ l.length) :
    (splice l a b xs).drop b = l.drop b := by
  simp only [splice]
  exact List.drop_left' (by
    simp only [List.length_append, List.length_take]
    omega)

theorem slice_eq_drop_take (l : List Nat) (a b : Nat) :
    slice l a b = (l.take b).drop a := by
  simp only [slice]
  rw [List.drop_take]

theorem take_eq_of_take_eq {l m : List Nat} {a b : Nat} (hab : a ≤ b)
    (h : l.take b = m.take b) : l.take a = m.take a := by
  have h1 : (l.take b).take a = (m.take b).take a := by rw [h]
  simpa [List.take_take, Nat.min_eq_left hab] using h1

theorem drop_eq_of_drop_eq {l m : List Nat} {a b : Nat} (hab : a ≤ b)
    (h : l.drop a = m.drop a) : l.drop b = m.drop b := by
  have h1 : (l.drop a).drop (b - a) = (m.drop a).drop (b - a) := by rw [h]
  rw [List.drop_drop, List.drop_drop] at h1
  have h2 : a + (b - a) = b := by omega
  rwa [h2] at h1

theorem slice_congr {l m : List Nat} {a b : Nat}
    (ht : l.take b = m.take b) : slice l a b = slice m a b := by
  rw [slice_eq_drop_take, slice_eq_drop_take, ht]

theorem splice_congr {l m zs : List Nat} {a b : Nat}
    (ht : l.take a = m.take a) (hd : l.drop b = m.drop b) :
    splice l a b zs = splice m a b zs := by
  simp only [splice, ht, hd]

theorem slice_splice_right {l xs : List Nat} {a b c d : Nat} (hx : xs.length = b - a)
    (hab : a ≤ b) (ha : a ≤ l.length) (hbc : b ≤ c) :
    slice (splice l a b xs) c d = slice l c d := by
  have h1 : (splice l a b xs).drop c = l.drop c :=
    drop_eq_of_drop_eq hbc (drop_splice hx hab ha)
  simp only [slice, h1]

theorem slice_splice_left {l xs : List Nat} {a b c d : Nat}
    (ha : a ≤ l.length) (hda : d ≤ a) :
    slice (splice l a b xs) c d = slice l c d := by
  have h1 : (splice l a b xs).take d = l.take d :=
    take_eq_of_take_eq hda (take_splice ha)
  rw [slice_eq_drop_take, slice_eq_drop_take, h1]

theorem slice_splice_middle {l xs : List Nat} {a b : Nat} (hx : xs.length = b - a)
    (hab : a ≤ b) (ha : a ≤ l.length) :
    slice (splice l a b xs) a b = xs := by
  simp only [slice, splice, List.append_assoc]
  rw [List.drop_left' (by simp only [List.length_take]; omega)]
  exact List.take_left' hx

theorem splice_splice {l xs ys : List Nat} {a b : Nat} (hx : xs.length = b - a)
    (hab : a ≤ b) (ha : a ≤ l.length) :
    splice (splice l a b xs) a b ys = splice l a b ys := by
  apply splice_congr (take_splice ha) (drop_splice hx hab ha)

theorem splice_perm {l xs : List Nat} {a b : Nat} (hp : xs.Perm (slice l a b))
    (hab : a ≤ b) : (splice l a b xs).Perm l := by
  conv_rhs => rw [← @splice_self l a b hab]
  simp only [splice]
  exact ((List.Perm.refl _).append hp).append_right _

theorem slice_append_slice {l : List Nat} {a b c : Nat} (hab : a ≤ b) (hbc : b ≤ c) :
    slice l a b ++ slice l b c = slice l a c := by
  have h1 : l.drop b = (l.drop a).drop (b - a) := by
    rw [List.drop_drop]; congr 1; omega
  simp only [slice, h1, ← List.take_add]
  congr 1
  omega

/-! ## Specification-side sort functions -/

theorem natLe_iff {a b : Nat} : natLe a b = true ↔ a ≤ b := by
  simp [natLe]

theorem msList_perm (l : List Nat) : (msList l).Perm l := by
  induction l using msList.induct with
  | case1 l h => rw [msList]; simp [h]
  | case2 l h ih1 ih2 =>
    rw [msList]
    simp only [h, dite_false]
    have h3 := (@List.merge_perm_append Nat natLe
      (msList (l.take (l.length / 2)))
      (msList (l.drop (l.length / 2)))).trans (ih1.append ih2)
    rwa [List.take_append_drop] at h3

theorem msList_length (l : List Nat) : (msList l).length = l.length :=
  (msList_perm l).length_eq

theorem pairwise_natLe_iff {l : List Nat} :
    l.Pairwise (fun a b => natLe a b = true) ↔ List.Sorted (· ≤ ·) l := by
  constructor
  · intro h
    exact h.imp (fun hab => natLe_iff.mp hab)
  · intro h
    exact h.imp (fun hab => natLe_iff.mpr hab)

theorem msList_sorted (l : List Nat) : List.Sorted (· ≤ ·) (msList l) := by
  induction l using msList.induct with
  | case1 l h =>
    rw [msList]
    simp only [h, dite_true]
    match l, h with
    | [], _ => simp
    | [x], _ => simp
  | case2 l h ih1 ih2 =>
    rw [msList]
    simp only [h, dite_false]
    rw [← pairwise_natLe_iff]
    apply List.sorted_merge
    · intro a b c hab hbc
      simp only [natLe_iff] at *
      omega
    · intro a b
      simp only [natLe]
      by_cases hab : a ≤ b
      · simp [hab]
      · simp [hab]
        omega
    · exact pairwise_natLe_iff.mpr ih1
    · exact pairwise_natLe_iff.mpr ih2

theorem bubblePassL_perm (l : List Nat) : (bubblePassL l).Perm l := by
  induction l using bubblePassL.induct with
  | case1 => rw [bubblePassL]
  | case2 x => rw [bubblePassL]
  | case3 x y t h ih =>
    rw [bubblePassL]
    simp only [h, if_true]
    exact (ih.cons y).trans (List.Perm.swap x y t)
  | case4 x y t h ih =>
    rw [bubblePassL]
    simp only [h, if_false]
    exact ih.cons x

theorem bubblePassL_last (l : List Nat) (hne : l ≠ []) :
    ∃ l' m, bubblePassL l = l' ++ [m] ∧ ∀ x ∈ l, x ≤ m := by
  induction l using bubblePassL.induct with
  | case1 => exact absurd rfl hne
  | case2 x =>
    refine ⟨[], x, by rw [bubblePassL]; rfl, ?_⟩
    intro z hz
    simp at hz
    omega
  | case3 x y t h ih =>
    obtain ⟨l', m, he, hb⟩ := ih (by simp)
    refine ⟨y :: l', m, ?_, ?_⟩
    · rw [bubblePassL]
      simp [h, he]
    · intro z hz
      have hx : x ≤ m := hb x (by simp)
      simp only [List.mem_cons] at hz
      rcases hz with rfl | rfl | hz
      · exact hx
      · omega
      · exact hb z (by simp [hz])
  | case4 x y t h ih =>
    obtain ⟨l', m, he, hb⟩ := ih (by simp)
    refine ⟨x :: l', m, ?_, ?_⟩
    · rw [bubblePassL]
      simp [h, he]
    · intro z hz
      have hy : y ≤ m := hb y (by simp)
      simp only [List.mem_cons] at hz
      rcases hz with rfl | rfl | hz
      · omega
      · exact hy
      · exact hb z (by simp [hz])

/-- Effect of `Vec::swap(j, j+1)` as a segment replacement. -/
theorem swapL_adj {l : List Nat} {j : Nat} (h : j + 1 < l.length) :
    swapL l j (j + 1) =
      l.take j ++ l.getD (j + 1) 0 :: l.getD j 0 :: l.drop (j + 2) := by
  have hj : j < l.length := by omega
  have h1 : l.set j (l.getD (j + 1) 0) =
      l.take j ++ l.getD (j + 1) 0 :: l.drop (j + 1) :=
    List.set_eq_take_cons_drop _ hj
  have hlen : (l.take j).length = j := by
    simp only [List.length_take]
    omega
  rw [swapL, h1]
  rw [List.set_eq_take_cons_drop _ (by
    simp only [List.length_append, List.length_take, List.length_cons,
      List.length_drop]
    omega)]
  have hA : (l.take j ++ l.getD (j + 1) 0 :: l.drop (j + 1)).take (j + 1) =
      l.take j ++ [l.getD (j + 1) 0] := by
    rw [show j + 1 = (l.take j).length + 1 by omega, List.take_append]
    rfl
  have hB : (l.take j ++ l.getD (j + 1) 0 :: l.drop (j + 1)).drop (j + 2) =
      l.drop (j + 2) := by
    nth_rewrite 1 [show j + 2 = (l.take j).length + 2 by omega]
    rw [List.drop_append]
    rw [show (2 : Nat) = 1 + 1 from rfl, List.drop_succ_cons, List.drop_drop]

  simp only [show j + 1 + 1 = j + 2 from rfl]
  rw [hA, hB]
  simp

/-! ## Replay basics -/

theorem replay_append (as bs : List Action) (x : List Nat) :
    replay (as ++ bs) x = replay bs (replay as x) := by
  simp [replay, List.foldl_append]

theorem replay_cons (a : Action) (as : List Action) (x : List Nat) :
    replay (a :: as) x = replay as (applyAction x a) := rfl

theorem replay_nil (x : List Nat) : replay [] x = x := rfl

theorem applyAction_of_noop {x : List Nat} {a : Action}
    (h1 : a.kind ≠ ActionKind.swap) (h2 : a.kind ≠ ActionKind.write) :
    applyAction x a = x := by
  unfold applyAction
  cases hk : a.kind <;> simp_all

theorem replay_of_noop {acts : List Action} {x : List Nat}
    (h : ∀ a ∈ acts, a.kind ≠ ActionKind.swap ∧ a.kind ≠ ActionKind.write) :
    replay acts x = x := by
  induction acts with
  | nil => rfl
  | cons a as ih =>
    rw [replay_cons, applyAction_of_noop (h a (by simp)).1 (h a (by simp)).2]
    exact ih (fun b hb => h b (by simp [hb]))

theorem length_applyAction (x : List Nat) (a : Action) :
    (applyAction x a).length = x.length := by
  unfold applyAction
  cases a.kind <;> simp [swapL]

theorem length_replay (acts : List Action) (x : List Nat) :
    (replay acts x).length = x.length := by
  induction acts generalizing x with
  | nil => rfl
  | cons a as ih => rw [replay_cons, ih, length_applyAction]

/-! ## Merge generator characterization -/

theorem drainLoop_temp {arr : List Nat} {stop i tidx mem tid off : Nat}
    (hs : stop ≤ arr.length) :
    (drainLoop arr stop i tidx mem tid off).temp = slice arr i stop := by
  induction i, tidx, mem, tid, off using drainLoop.induct arr stop with
  | case1 i tidx mem tid off h ih =>
    rw [drainLoop]
    simp only [h, dite_true, ih]
    rw [slice_cons h (by omega)]
  | case2 i tidx mem tid off h =>
    rw [drainLoop]
    simp only [h, dite_false]
    rw [slice_nil (by omega)]

theorem drainLoop_acts {arr : List Nat} {stop i tidx mem tid off : Nat} :
    ∀ a ∈ (drainLoop arr stop i tidx mem tid off).acts,
      a.kind = ActionKind.tempPush := by
  induction i, tidx, mem, tid, off using drainLoop.induct arr stop with
  | case1 i tidx mem tid off h ih =>
    rw [drainLoop]
    simp only [h, dite_true]
    intro a ha
    simp only [List.mem_cons] at ha
    rcases ha with rfl | ha
    · rfl
    · exact ih a ha
  | case2 i tidx mem tid off h =>
    rw [drainLoop]
    simp [h]

theorem mergeLoopBoth_temp {arr : List Nat} {mid right i j tidx mem tid off : Nat}
    (hm : mid ≤ arr.length) (hr : right ≤ arr.length) :
    (mergeLoopBoth arr mid right i j tidx mem tid off).temp ++
        slice arr (mergeLoopBoth arr mid right i j tidx mem tid off).iEnd mid ++
        slice arr (mergeLoopBoth arr mid right i j tidx mem tid off).jEnd right =
      List.merge (slice arr i mid) (slice arr j right) natLe := by
  induction i, j, tidx, mem, tid, off using mergeLoopBoth.induct arr mid right with
  | case1 i j tidx mem tid off h hle ih =>
    rw [mergeLoopBoth]
    simp only [h, dite_true, hle, if_true]
    rw [slice_cons h.1 (by omega), slice_cons h.2 (by omega),
      List.cons_merge_cons]
    have : natLe (arr.getD i 0) (arr.getD j 0) = true := natLe_iff.mpr hle
    rw [if_pos this, ← slice_cons h.2 (by omega)]
    simpa using ih
  | case2 i j tidx mem tid off h hle ih =>
    rw [mergeLoopBoth]
    simp only [h, dite_true, hle, if_false]
    rw [slice_cons h.1 (by omega), slice_cons h.2 (by omega),
      List.cons_merge_cons]
    have hf : natLe (arr.getD i 0) (arr.getD j 0) = false := by
      simp only [natLe, decide_eq_false_iff_not]
      omega
    have hcond : ¬ (natLe (arr.getD i 0) (arr.getD j 0) = true) := by
      rw [hf]
      simp
    rw [if_neg hcond, ← slice_cons h.1 (by omega)]
    simpa using ih
  | case3 i j tidx mem tid off h =>
    rw [mergeLoopBoth]
    simp only [h, dite_false]
    rw [Decidable.not_and_iff_or_not] at h
    rcases h with h | h
    · rw [slice_nil (by omega : mid ≤ i)]
      simp
    · rw [slice_nil (by omega : right ≤ j)]
      simp

theorem mergeLoopBoth_acts {arr : List Nat} {mid right i j tidx mem tid off : Nat} :
    ∀ a ∈ (mergeLoopBoth arr mid right i j tidx mem tid off).acts,
      a.kind = ActionKind.compare ∨ a.kind = ActionKind.tempPush := by
  induction i, j, tidx, mem, tid, off using mergeLoopBoth.induct arr mid right with
  | case1 i j tidx mem tid off h hle ih =>
    rw [mergeLoopBoth]
    simp only [h, h.1, h.2, and_self, dite_true, hle, if_true]
    intro a ha
    simp only [List.mem_cons] at ha
    rcases ha with rfl | rfl | ha
    · exact Or.inl rfl
    · exact Or.inr rfl
    · exact ih a ha
  | case2 i j tidx mem tid off h hle ih =>
    rw [mergeLoopBoth]
    simp only [h, h.1, h.2, and_self, dite_true, hle, if_false]
    intro a ha
    simp only [List.mem_cons] at ha
    rcases ha with rfl | rfl | ha
    · exact Or.inl rfl
    · exact Or.inr rfl
    · exact ih a ha
  | case3 i j tidx mem tid off h =>
    rw [mergeLoopBoth]
    simp [h]

theorem writeBack_arr {temp : List Nat} :
    ∀ {arr : List Nat} {pos mem tid off : Nat}, pos + temp.length ≤ arr.length →
    (writeBack arr pos temp mem tid off).arr = splice arr pos (pos + temp.length) temp := by
  induction temp with
  | nil =>
    intro arr pos mem tid off h
    simp [writeBack, splice]
  | cons v vs ih =>
    intro arr pos mem tid off h
    simp only [List.length_cons] at h
    have hp : pos < arr.length := by omega
    rw [writeBack]
    dsimp only
    rw [ih (by simp only [List.length_set]; omega)]
    have hset : arr.set pos v = arr.take pos ++ v :: arr.drop (pos + 1) :=
      List.set_eq_take_cons_drop _ hp
    have hlen : (arr.take pos).length = pos := by
      simp only [List.length_take]
      omega
    have hA : (arr.take pos ++ v :: arr.drop (pos + 1)).take (pos + 1) =
        arr.take pos ++ [v] := by
      rw [show pos + 1 = (arr.take pos).length + 1 by omega, List.take_append]
      rfl
    have hB : (arr.take pos ++ v :: arr.drop (pos + 1)).drop (pos + 1 + vs.length) =
        arr.drop (pos + 1 + vs.length) := by
      rw [show pos + 1 + vs.length = (arr.take pos).length + (1 + vs.length) by omega,
        List.drop_append]
      rw [show (1 : Nat) + vs.length = vs.length + 1 by omega, List.drop_succ_cons,
        List.drop_drop]
      congr 1
      omega
    simp only [splice, hset, hA, hB, List.length_cons]
    rw [show pos + (vs.length + 1) = pos + 1 + vs.length by omega]
    simp

theorem writeBack_replay {temp : List Nat} :
    ∀ {arr : List Nat} {pos mem tid off : Nat} (x : List Nat),
    replay (writeBack arr pos temp mem tid off).acts x
      = (writeBack x (off + pos) temp mem tid 0).arr := by
  induction temp with
  | nil =>
    intro arr pos mem tid off x
    simp [writeBack, replay]
  | cons v vs ih =>
    intro arr pos mem tid off x
    rw [writeBack]
    dsimp only
    rw [replay_cons]
    have happ : applyAction x ⟨.write, off + pos, 0, v, mem, 0, tid⟩ =
        x.set (off + pos) v := rfl
    rw [happ, ih]
    conv_rhs => rw [writeBack]
    rfl

theorem writeBack_acts {temp : List Nat} :
    ∀ {arr : List Nat} {pos mem tid off : Nat},
    ∀ a ∈ (writeBack arr pos temp mem tid off).acts,
      a.kind = ActionKind.write ∧ off + pos ≤ a.i ∧
        a.i < off + pos + temp.length ∧ a.memory = mem := by
  induction temp with
  | nil =>
    intro arr pos mem tid off a ha
    simp [writeBack] at ha
  | cons v vs ih =>
    intro arr pos mem tid off a ha
    rw [writeBack] at ha
    dsimp only at ha
    simp only [List.mem_cons] at ha
    rcases ha with rfl | ha
    · refine ⟨rfl, by dsimp only; omega,
        by dsimp only; simp only [List.length_cons]; omega, rfl⟩
    · obtain ⟨h1, h2, h3, h4⟩ := ih a ha
      exact ⟨h1, by omega, by simp only [List.length_cons]; omega, h4⟩

/-- The scratch content built by the three push loops of `merge` is the
standard two-run merge of the segments (left-associated form). -/
theorem mergeAux_temp {arr : List Nat} {mid right i j m1 t1 t2 t3 tid off : Nat}
    (hmr : mid ≤ right) (hr : right ≤ arr.length) :
    (mergeLoopBoth arr mid right i j t1 m1 tid off).temp ++
        (drainLoop arr mid (mergeLoopBoth arr mid right i j t1 m1 tid off).iEnd
          t2 m1 tid off).temp ++
        (drainLoop arr right (mergeLoopBoth arr mid right i j t1 m1 tid off).jEnd
          t3 m1 tid off).temp
      = List.merge (slice arr i mid) (slice arr j right) natLe := by
  have hm : mid ≤ arr.length := le_trans hmr hr
  rw [drainLoop_temp hm, drainLoop_temp hr]
  exact mergeLoopBoth_temp hm hr

/-- Right-associated form of `mergeAux_temp`. -/
theorem mergeAux_tempR {arr : List Nat} {mid right i j m1 t1 t2 t3 tid off : Nat}
    (hmr : mid ≤ right) (hr : right ≤ arr.length) :
    (mergeLoopBoth arr mid right i j t1 m1 tid off).temp ++
        ((drainLoop arr mid (mergeLoopBoth arr mid right i j t1 m1 tid off).iEnd
          t2 m1 tid off).temp ++
         (drainLoop arr right (mergeLoopBoth arr mid right i j t1 m1 tid off).jEnd
          t3 m1 tid off).temp)
      = List.merge (slice arr i mid) (slice arr j right) natLe := by
  rw [← List.append_assoc]
  exact mergeAux_temp hmr hr

theorem merge_slice_length {arr : List Nat} {left mid right : Nat}
    (hlm : left ≤ mid) (hmr : mid ≤ right) (hr : right ≤ arr.length) :
    (List.merge (slice arr left mid) (slice arr mid right) natLe).length
      = right - left := by
  have := (@List.merge_perm_append Nat natLe
    (slice arr left mid) (slice arr mid right)).length_eq
  rw [this, List.length_append, length_slice hlm (le_trans hmr hr),
    length_slice hmr hr]
  omega

theorem mergeAux_arr {arr : List Nat} {left mid right off mem tid : Nat}
    (hlm : left ≤ mid) (hmr : mid ≤ right) (hr : right ≤ arr.length) :
    (mergeAux arr left mid right off mem tid).arr
      = splice arr left right
          (List.merge (slice arr left mid) (slice arr mid right) natLe) := by
  unfold mergeAux
  dsimp only
  rw [mergeAux_temp hmr hr]
  rw [writeBack_arr (by rw [merge_slice_length hlm hmr hr]; omega)]
  rw [merge_slice_length hlm hmr hr]
  congr 1
  omega

theorem mergeAux_mem {arr : List Nat} {left mid right off mem tid : Nat} :
    (mergeAux arr left mid right off mem tid).mem = mem := by
  unfold mergeAux
  dsimp only
  omega

theorem replay_prefix_noop {A B : List Action} {x : List Nat}
    (h : ∀ a ∈ A, a.kind ≠ ActionKind.swap ∧ a.kind ≠ ActionKind.write) :
    replay (A ++ B) x = replay B x := by
  rw [replay_append, replay_of_noop h]

theorem mergeAux_replay {arr x : List Nat} {left mid right off mem tid : Nat}
    (hlm : left ≤ mid) (hmr : mid ≤ right) (hr : right ≤ arr.length)
    (hxr : off + right ≤ x.length) :
    replay (mergeAux arr left mid right off mem tid).acts x
      = splice x (off + left) (off + right)
          (List.merge (slice arr left mid) (slice arr mid right) natLe) := by
  unfold mergeAux
  dsimp only
  simp only [List.append_assoc]
  rw [replay_prefix_noop (fun a ha => by
    rcases mergeLoopBoth_acts a ha with h | h <;> simp [h])]
  rw [replay_prefix_noop (fun a ha => by
    have := drainLoop_acts a ha
    simp [this])]
  rw [replay_prefix_noop (fun a ha => by
    have := drainLoop_acts a ha
    simp [this])]
  rw [replay_append, writeBack_replay]
  rw [replay_of_noop (fun a ha => by
    simp only [List.mem_singleton] at ha
    subst ha
    exact ⟨by simp, by simp⟩)]
  rw [writeBack_arr (by
    rw [mergeAux_tempR hmr hr, merge_slice_length hlm hmr hr]
    omega)]
  rw [mergeAux_tempR hmr hr, merge_slice_length hlm hmr hr]
  congr 1
  omega

theorem mergeAux_acts {arr : List Nat} {left mid right off mem tid : Nat}
    (hlm : left ≤ mid) (hmr : mid ≤ right) (hr : right ≤ arr.length) :
    ∀ a ∈ (mergeAux arr left mid right off mem tid).acts,
      a.kind = ActionKind.compare ∨ a.kind = ActionKind.tempPush ∨
        a.kind = ActionKind.tempClear ∨
        (a.kind = ActionKind.write ∧ off + left ≤ a.i ∧ a.i < off + right) := by
  intro a ha
  unfold mergeAux at ha
  dsimp only at ha
  rcases List.mem_append.mp ha with h4 | hc
  · rcases List.mem_append.mp h4 with h3 | hw
    · rcases List.mem_append.mp h3 with h2 | hd2
      · rcases List.mem_append.mp h2 with h1 | hd1
        · rcases mergeLoopBoth_acts a h1 with h | h
          · exact Or.inl h
          · exact Or.inr (Or.inl h)
        · exact Or.inr (Or.inl (drainLoop_acts a hd1))
      · exact Or.inr (Or.inl (drainLoop_acts a hd2))
    · rw [mergeAux_temp hmr hr] at hw
      obtain ⟨h1, h2, h3, _⟩ := writeBack_acts a hw
      rw [merge_slice_length hlm hmr hr] at h3
      exact Or.inr (Or.inr (Or.inr ⟨h1, h2, by omega⟩))
  · simp only [List.mem_singleton] at hc
    subst hc
    exact Or.inr (Or.inr (Or.inl rfl))

theorem slice_take {l : List Nat} {a b k : Nat} (hk : k ≤ b - a) :
    (slice l a b).take k = slice l a (a + k) := by
  simp only [slice, List.take_take]
  congr 1
  omega

theorem slice_drop {l : List Nat} {a b k : Nat} :
    (slice l a b).drop k = slice l (a + k) b := by
  have h1 : b - a - k = b - (a + k) := by omega
  have h2 : k + a = a + k := by omega
  simp only [slice, List.drop_take, List.drop_drop, h1, h2]

theorem msList_eq_merge {l : List Nat} (h : ¬ l.length ≤ 1) :
    msList l =
      List.merge (msList (l.take (l.length / 2))) (msList (l.drop (l.length / 2)))
        natLe := by
  rw [msList]
  simp [h]

/-- Combined characterization of `merge_sort_recursive`: the resulting
array sorts the segment in place, and replaying its actions against any
array whose corresponding (offset) segment agrees has the same effect. -/
theorem mergeSortRec_main :
    ∀ (arr : List Nat) (left right off mem tid : Nat),
      left ≤ right → right ≤ arr.length →
      ((mergeSortRec arr left right off mem tid).arr
          = splice arr left right (msList (slice arr left right))) ∧
      (∀ x : List Nat, off + right ≤ x.length →
        slice x (off + left) (off + right) = slice arr left right →
        replay (mergeSortRec arr left right off mem tid).acts x
          = splice x (off + left) (off + right) (msList (slice arr left right))) := by
  intro arr left right off mem tid
  induction arr, left, right, off, mem, tid using mergeSortRec.induct with
  | case1 arr left right off mem tid h =>
    intro hlr hr
    have hlen : (slice arr left right).length ≤ 1 := by
      rw [length_slice hlr hr]
      omega
    have hms : msList (slice arr left right) = slice arr left right := by
      rw [msList]
      simp [hlen]
    constructor
    · rw [mergeSortRec]
      simp only [h, dite_true]
      rw [hms, splice_self hlr]
    · intro x hxr hsl
      rw [mergeSortRec]
      simp only [h, dite_true]
      rw [hms, ← hsl, splice_self (by omega)]
      rfl
  | case2 arr left right off mem tid h mid g1 ihA ihB ihC =>
    intro hlr hr
    clear ihB
    have hmid : mid = left + (right - left) / 2 := rfl
    have hg1 : g1 = mergeSortRec arr left mid off mem tid := rfl
    -- arithmetic facts about the midpoint
    have hlm : left ≤ mid := by rw [hmid]; omega
    have hmr : mid ≤ right := by rw [hmid]; omega
    have hmlen : mid ≤ arr.length := by rw [hmid]; omega
    obtain ⟨e1, r1⟩ := ihA hlm hmlen
    rw [← hg1] at e1 r1
    have hX : (msList (slice arr left mid)).length = mid - left := by
      rw [msList_length, length_slice hlm hmlen]
    have hg1len : g1.arr.length = arr.length := by
      rw [e1, length_splice hX hlm hmlen]
    obtain ⟨e2, r2⟩ := ihC hmr (by omega)
    set g2 := mergeSortRec g1.arr mid right off g1.mem tid with hg2
    -- the second recursive call sees the untouched right segment
    have hsl2 : slice g1.arr mid right = slice arr mid right := by
      rw [e1]
      exact slice_splice_right hX hlm (by omega) (le_refl mid)
    have hY : (msList (slice arr mid right)).length = right - mid := by
      rw [msList_length, length_slice hmr hr]
    rw [hsl2] at e2 r2
    have hg2len : g2.arr.length = arr.length := by
      rw [e2, length_splice hY hmr (by omega), hg1len]
    -- slices of the doubly-rewritten array
    have sX : slice g2.arr left mid = msList (slice arr left mid) := by
      rw [e2, slice_splice_left (by omega) (le_refl mid), e1,
        slice_splice_middle hX hlm (by omega)]
    have sY : slice g2.arr mid right = msList (slice arr mid right) := by
      rw [e2, slice_splice_middle hY hmr (by omega)]
    -- the merged scratch is the spec-side sort of the whole segment
    have hms : msList (slice arr left right)
        = List.merge (msList (slice arr left mid)) (msList (slice arr mid right))
            natLe := by
      rw [msList_eq_merge (by rw [length_slice hlr hr]; omega)]
      rw [length_slice hlr hr]
      rw [slice_take (by omega), slice_drop]
    have hZlen : (msList (slice arr left right)).length = right - left := by
      rw [msList_length, length_slice hlr hr]
    -- take/drop agreement of g2.arr with arr outside [left, right)
    have htake : g2.arr.take left = arr.take left := by
      have t2 : g2.arr.take mid = g1.arr.take mid := by
        rw [e2]
        exact take_splice (by omega)
      have t1 : g1.arr.take left = arr.take left := by
        rw [e1]
        exact take_splice (by omega)
      calc g2.arr.take left = (g2.arr.take mid).take left := by
            rw [List.take_take, Nat.min_eq_left hlm]
        _ = (g1.arr.take mid).take left := by rw [t2]
        _ = g1.arr.take left := by rw [List.take_take, Nat.min_eq_left hlm]
        _ = arr.take left := t1
    have hdrop : g2.arr.drop right = arr.drop right := by
      have d2 : g2.arr.drop right = g1.arr.drop right := by
        rw [e2]
        exact drop_splice hY hmr (by omega)
      have d1 : g1.arr.drop right = arr.drop right := by
        apply drop_eq_of_drop_eq hmr
        rw [e1]
        exact drop_splice hX hlm (by omega)
      rw [d2, d1]
    constructor
    · -- generator-side array
      rw [mergeSortRec]
      simp only [h, dite_false]
      rw [← hmid, ← hg1, ← hg2]
      rw [mergeAux_arr hlm hmr (by omega), sX, sY, ← hms]
      exact splice_congr htake hdrop
    · -- replay side
      intro x hxr hsl
      have hsx1 : slice x (off + left) (off + mid) = slice arr left mid := by
        have := congrArg (fun t => List.take (mid - left) t) hsl
        simpa [slice_take (show mid - left ≤ right - left by omega),
          slice_take (show mid - left ≤ off + right - (off + left) by omega),
          show off + left + (mid - left) = off + mid by omega,
          show left + (mid - left) = mid by omega] using this
      have hsx2 : slice x (off + mid) (off + right) = slice arr mid right := by
        have := congrArg (fun t => List.drop (mid - left) t) hsl
        simpa [slice_drop, show off + left + (mid - left) = off + mid by omega,
          show left + (mid - left) = mid by omega] using this
      rw [mergeSortRec]
      simp only [h, dite_false]
      rw [← hmid, ← hg1, ← hg2]
      rw [replay_append, replay_append]
      rw [r1 x (by omega) hsx1]
      set x1 := splice x (off + left) (off + mid) (msList (slice arr left mid))
        with hx1
      have hx1len : x1.length = x.length := by
        rw [hx1, length_splice (by rw [hX]; omega) (by omega) (by omega)]
      rw [r2 x1 (by omega) (by
        rw [hx1, slice_splice_right (by rw [hX]; omega) (by omega) (by omega)
          (by omega)]
        exact hsx2)]
      set x2 := splice x1 (off + mid) (off + right) (msList (slice arr mid right))
        with hx2
      have hx2len : x2.length = x.length := by
        rw [hx2, length_splice (by rw [hY]; omega) (by omega) (by omega), hx1len]
      rw [mergeAux_replay hlm hmr (by omega) (by omega), sX, sY, ← hms]
      have htx : x2.take (off + left) = x.take (off + left) := by
        have t2 : x2.take (off + mid) = x1.take (off + mid) := by
          rw [hx2]
          exact take_splice (by omega)
        have t1 : x1.take (off + left) = x.take (off + left) := by
          rw [hx1]
          exact take_splice (by omega)
        calc x2.take (off + left) = (x2.take (off + mid)).take (off + left) := by
              rw [List.take_take, Nat.min_eq_left (by omega)]
          _ = (x1.take (off + mid)).take (off + left) := by rw [t2]
          _ = x1.take (off + left) := by
              rw [List.take_take, Nat.min_eq_left (by omega)]
          _ = x.take (off + left) := t1
      have hdx : x2.drop (off + right) = x.drop (off + right) := by
        have d2 : x2.drop (off + right) = x1.drop (off + right) := by
          rw [hx2]
          exact drop_splice (by rw [hY]; omega) (by omega) (by omega)
        have d1 : x1.drop (off + right) = x.drop (off + right) := by
          apply drop_eq_of_drop_eq (show off + mid ≤ off + right by omega)
          rw [hx1]
          exact drop_splice (by rw [hX]; omega) (by omega) (by omega)
        rw [d2, d1]
      exact splice_congr htx hdx

theorem mergeSortRec_mem {arr : List Nat} {left right off mem tid : Nat} :
    (mergeSortRec arr left right off mem tid).mem = mem := by
  induction arr, left, right, off, mem, tid using mergeSortRec.induct with
  | case1 arr left right off mem tid h =>
    rw [mergeSortRec]
    simp [h]
  | case2 arr left right off mem tid h mid g1 ihA ihB ihC =>
    have hmid : mid = left + (right - left) / 2 := rfl
    have hg1 : g1 = mergeSortRec arr left mid off mem tid := rfl
    rw [mergeSortRec]
    simp only [h, dite_false]
    rw [mergeAux_mem, ← hmid, ← hg1, ihC, hg1]
    exact ihA

theorem mergeSortRec_length {arr : List Nat} {left right off mem tid : Nat}
    (hlr : left ≤ right) (hr : right ≤ arr.length) :
    (mergeSortRec arr left right off mem tid).arr.length = arr.length := by
  rw [(mergeSortRec_main arr left right off mem tid hlr hr).1]
  exact length_splice (by rw [msList_length, length_slice hlr hr]) hlr hr

theorem mergeSortRec_acts :
    ∀ (arr : List Nat) (left right off mem tid : Nat),
      left ≤ right → right ≤ arr.length →
      ∀ a ∈ (mergeSortRec arr left right off mem tid).acts,
        a.kind = ActionKind.compare ∨ a.kind = ActionKind.tempPush ∨
          a.kind = ActionKind.tempClear ∨
          (a.kind = ActionKind.write ∧ off + left ≤ a.i ∧ a.i < off + right) := by
  intro arr left right off mem tid
  induction arr, left, right, off, mem, tid using mergeSortRec.induct with
  | case1 arr left right off mem tid h =>
    intro hlr hr a ha
    rw [mergeSortRec] at ha
    simp [h] at ha
  | case2 arr left right off mem tid h mid g1 ihA ihB ihC =>
    intro hlr hr a ha
    clear ihB
    have hmid : mid = left + (right - left) / 2 := rfl
    have hg1 : g1 = mergeSortRec arr left mid off mem tid := rfl
    have hlm : left ≤ mid := by rw [hmid]; omega
    have hmr : mid ≤ right := by rw [hmid]; omega
    have hmlen : mid ≤ arr.length := by rw [hmid]; omega
    have hg1len : g1.arr.length = arr.length := by
      rw [hg1]
      exact mergeSortRec_length hlm hmlen
    have hg2len : (mergeSortRec g1.arr mid right off g1.mem tid).arr.length
        = arr.length := by
      rw [mergeSortRec_length hmr (by omega), hg1len]
    rw [mergeSortRec] at ha
    simp only [h, dite_false] at ha
    rw [← hmid, ← hg1] at ha
    rcases List.mem_append.mp ha with h12 | h3
    · rcases List.mem_append.mp h12 with h1 | h2
      · rcases ihA hlm hmlen a (by rw [hg1] at h1; exact h1) with k | k | k | ⟨k, hb1, hb2⟩
        · exact Or.inl k
        · exact Or.inr (Or.inl k)
        · exact Or.inr (Or.inr (Or.inl k))
        · exact Or.inr (Or.inr (Or.inr ⟨k, by omega, by omega⟩))
      · rcases ihC hmr (by omega) a h2 with k | k | k | ⟨k, hb1, hb2⟩
        · exact Or.inl k
        · exact Or.inr (Or.inl k)
        · exact Or.inr (Or.inr (Or.inl k))
        · exact Or.inr (Or.inr (Or.inr ⟨k, by omega, by omega⟩))
    · exact mergeAux_acts hlm hmr (by omega) a h3

theorem splice_full {l xs : List Nat} : splice l 0 l.length xs = xs := by
  simp [splice]

/-- Replaying `merge_sort_actions` against a copy of the input produces
the in-place mergesort of the input. -/
theorem merge_sort_actions_replay (values : List Nat) :
    replay (merge_sort_actions values) values = msList values := by
  unfold merge_sort_actions
  rw [replay_append]
  have hmain := (mergeSortRec_main values 0 values.length 0 0 0
    (by omega) (le_refl _)).2 values (by omega)
    (by rw [show (0 : Nat) + 0 = 0 from rfl, Nat.zero_add])
  rw [hmain]
  rw [replay_of_noop (fun a ha => by
    simp only [List.mem_singleton] at ha
    subst ha
    exact ⟨by simp [doneAction], by simp [doneAction]⟩)]
  rw [show (0 : Nat) + 0 = 0 from rfl, show (0 : Nat) + values.length = values.length from by omega]
  rw [slice_zero_length, splice_full]

/-! ## Bubble generator characterization -/

theorem length_swapL (l : List Nat) (i j : Nat) : (swapL l i j).length = l.length := by
  simp [swapL]

/-- The effect of the inner bubble loop on the array is one bubble pass
over the segment `[j, stop]`. -/
theorem bubbleInner_arr :
    ∀ (arr : List Nat) (j stop : Nat), j ≤ stop → stop < arr.length →
      (bubbleInner arr j stop).arr
        = splice arr j (stop + 1) (bubblePassL (slice arr j (stop + 1))) := by
  intro arr j stop
  induction arr, j, stop using bubbleInner.induct with
  | case1 arr j stop h hgt ih =>
    intro hjs hs
    have hs' : stop < (swapL arr j (j + 1)).length := by
      rw [length_swapL]
      exact hs
    have hj1 : j + 1 < arr.length := by omega
    have hadj : swapL arr j (j + 1)
        = arr.take j ++ arr.getD (j + 1) 0 :: arr.getD j 0 :: arr.drop (j + 2) :=
      swapL_adj hj1
    have hadj' : swapL arr j (j + 1)
        = splice arr j (j + 2) [arr.getD (j + 1) 0, arr.getD j 0] := by
      rw [hadj]
      simp [splice]
    rw [bubbleInner]
    simp only [h, dite_true, hgt, if_true]
    rw [ih (by omega) hs']
    -- slices of the swapped array
    have s1 : slice (swapL arr j (j + 1)) (j + 2) (stop + 1)
        = slice arr (j + 2) (stop + 1) := by
      rw [hadj']
      exact slice_splice_right (by simp) (by omega) (by omega) (le_refl _)
    have s2 : slice (swapL arr j (j + 1)) j (j + 2)
        = [arr.getD (j + 1) 0, arr.getD j 0] := by
      rw [hadj']
      exact slice_splice_middle (by simp) (by omega) (by omega)
    have s3 : slice (swapL arr j (j + 1)) (j + 1) (stop + 1)
        = arr.getD j 0 :: slice arr (j + 2) (stop + 1) := by
      rw [← slice_append_slice (show j + 1 ≤ j + 2 by omega) (by omega), s1]
      have : slice (swapL arr j (j + 1)) (j + 1) (j + 2)
          = (slice (swapL arr j (j + 1)) j (j + 2)).drop 1 := by
        rw [slice_drop]
      rw [this, s2]
      rfl
    have s0 : slice arr j (stop + 1)
        = arr.getD j 0 :: arr.getD (j + 1) 0 :: slice arr (j + 2) (stop + 1) := by
      rw [slice_cons (by omega) (by omega), slice_cons (by omega) (by omega)]
    rw [s3, s0]
    have hpass : bubblePassL
        (arr.getD j 0 :: arr.getD (j + 1) 0 :: slice arr (j + 2) (stop + 1))
        = arr.getD (j + 1) 0 ::
            bubblePassL (arr.getD j 0 :: slice arr (j + 2) (stop + 1)) := by
      rw [bubblePassL, if_pos hgt]
    rw [hpass]
    -- both sides as explicit appends
    have htk : (swapL arr j (j + 1)).take (j + 1)
        = arr.take j ++ [arr.getD (j + 1) 0] := by
      rw [hadj, show j + 1 = (arr.take j).length + 1 by
        simp only [List.length_take]; omega, List.take_append]
      rfl
    have hdr : (swapL arr j (j + 1)).drop (stop + 1) = arr.drop (stop + 1) := by
      apply drop_eq_of_drop_eq (show j + 2 ≤ stop + 1 by omega)
      rw [hadj']
      exact drop_splice (by simp) (by omega) (by omega)
    simp only [splice, htk, hdr]
    simp
  | case2 arr j stop h hgt ih =>
    intro hjs hs
    rw [bubbleInner]
    simp only [h, dite_true, hgt, if_false]
    rw [ih (by omega) hs]
    have s0 : slice arr j (stop + 1)
        = arr.getD j 0 :: slice arr (j + 1) (stop + 1) := by
      rw [slice_cons (by omega) (by omega)]
    rw [s0]
    have hpass : ∃ rest, slice arr (j + 1) (stop + 1)
        = arr.getD (j + 1) 0 :: rest := by
      refine ⟨slice arr (j + 2) (stop + 1), ?_⟩
      rw [slice_cons (by omega) (by omega)]
    obtain ⟨rest, hrest⟩ := hpass
    have hpass2 : bubblePassL (arr.getD j 0 :: slice arr (j + 1) (stop + 1))
        = arr.getD j 0 :: bubblePassL (slice arr (j + 1) (stop + 1)) := by
      rw [hrest, bubblePassL, if_neg hgt, ← hrest]
    rw [hpass2]
    have htk : arr.take (j + 1) = arr.take j ++ [arr.getD j 0] := by
      rw [List.take_succ]
      congr 1
      rw [List.getD_eq_getElem arr 0 (by omega)]
      simp [List.getElem?_eq_getElem (show j < arr.length by omega)]
    simp only [splice, htk]
    simp
  | case3 arr j stop h =>
    intro hjs hs
    have hj : j = stop := by omega
    subst hj
    rw [bubbleInner]
    simp only [h, dite_false]
    have hsl : slice arr j (j + 1) = [arr.getD j 0] := by
      rw [slice_cons (by omega) (by omega), slice_nil (by omega)]
    rw [hsl, show bubblePassL [arr.getD j 0] = [arr.getD j 0] from by
      rw [bubblePassL], ← hsl, splice_self (by omega)]

theorem bubbleInner_replay :
    ∀ (arr : List Nat) (j stop : Nat),
      replay (bubbleInner arr j stop).acts arr = (bubbleInner arr j stop).arr := by
  intro arr j stop
  induction arr, j, stop using bubbleInner.induct with
  | case1 arr j stop h hgt ih =>
    rw [bubbleInner]
    simp only [h, dite_true, hgt, if_true]
    rw [replay_cons]
    rw [applyAction_of_noop (by simp) (by simp)]
    rw [replay_cons]
    show replay _ (swapL arr j (j + 1)) = _
    exact ih
  | case2 arr j stop h hgt ih =>
    rw [bubbleInner]
    simp only [h, dite_true, hgt, if_false]
    rw [replay_cons, applyAction_of_noop (by simp) (by simp)]
    exact ih
  | case3 arr j stop h =>
    rw [bubbleInner]
    simp [h, replay_nil]

theorem bubbleInner_acts :
    ∀ (arr : List Nat) (j stop : Nat),
      ∀ a ∈ (bubbleInner arr j stop).acts,
        a.kind = ActionKind.compare ∨ a.kind = ActionKind.swap := by
  intro arr j stop
  induction arr, j, stop using bubbleInner.induct with
  | case1 arr j stop h hgt ih =>
    rw [bubbleInner]
    simp only [h, dite_true, hgt, if_true]
    intro a ha
    simp only [List.mem_cons] at ha
    rcases ha with rfl | rfl | ha
    · exact Or.inl rfl
    · exact Or.inr rfl
    · exact ih a ha
  | case2 arr j stop h hgt ih =>
    rw [bubbleInner]
    simp only [h, dite_true, hgt, if_false]
    intro a ha
    simp only [List.mem_cons] at ha
    rcases ha with rfl | ha
    · exact Or.inl rfl
    · exact ih a ha
  | case3 arr j stop h =>
    rw [bubbleInner]
    simp [h]

theorem bubbleInner_length (arr : List Nat) (j stop : Nat) :
    (bubbleInner arr j stop).arr.length = arr.length := by
  induction arr, j, stop using bubbleInner.induct with
  | case1 arr j stop h hgt ih =>
    rw [bubbleInner]
    simp only [h, dite_true, hgt, if_true]
    rw [ih, length_swapL]
  | case2 arr j stop h hgt ih =>
    rw [bubbleInner]
    simp only [h, dite_true, hgt, if_false]
    exact ih
  | case3 arr j stop h =>
    rw [bubbleInner]
    simp [h]

theorem bubbleOuter_replay :
    ∀ (arr : List Nat) (i n : Nat),
      replay (bubbleOuter arr i n).acts arr = (bubbleOuter arr i n).arr := by
  intro arr i n
  induction arr, i, n using bubbleOuter.induct with
  | case1 arr i n h r ih =>
    have hr : r = bubbleInner arr 0 (n - 1 - i) := rfl
    rw [bubbleOuter]
    simp only [h, dite_true]
    rw [← hr]
    rw [replay_append, bubbleInner_replay, ← hr]
    rw [replay_cons, applyAction_of_noop (by simp) (by simp)]
    exact ih
  | case2 arr i n h =>
    rw [bubbleOuter]
    simp [h, replay_nil]

/-- Invariant proof of the outer bubble loop: if the `i`-element suffix
is already sorted and dominates the prefix, the loop ends sorted. -/
theorem bubbleOuter_sorted :
    ∀ (arr : List Nat) (i n : Nat), arr.length = n → i ≤ n →
      List.Sorted (· ≤ ·) (arr.drop (n - i)) →
      (∀ x ∈ arr.take (n - i), ∀ y ∈ arr.drop (n - i), x ≤ y) →
      List.Sorted (· ≤ ·) (bubbleOuter arr i n).arr ∧
        ((bubbleOuter arr i n).arr).Perm arr := by
  intro arr i n
  induction arr, i, n using bubbleOuter.induct with
  | case1 arr i n h r ih =>
    intro hlen hin hsortedS hdom
    have hr : r = bubbleInner arr 0 (n - 1 - i) := rfl
    rw [bubbleOuter]
    simp only [h, dite_true]
    rw [← hr]
    -- the pass rewrites the prefix [0, n - i)
    have hn1 : 0 < n := by omega
    have hstop : n - 1 - i < arr.length := by omega
    have hbr : r.arr = splice arr 0 (n - i)
        (bubblePassL (slice arr 0 (n - i))) := by
      rw [hr, bubbleInner_arr arr 0 (n - 1 - i) (by omega) hstop,
        show n - 1 - i + 1 = n - i by omega]
    have hsl0 : slice arr 0 (n - i) = arr.take (n - i) := by
      simp [slice]
    have hprefne : arr.take (n - i) ≠ [] := by
      have : (arr.take (n - i)).length = n - i := by
        simp only [List.length_take]
        omega
      intro hc
      rw [hc] at this
      simp at this
      omega
    obtain ⟨l', m, hLm, hmax⟩ := bubblePassL_last (arr.take (n - i)) hprefne
    have hpassperm : (bubblePassL (arr.take (n - i))).Perm (arr.take (n - i)) :=
      bubblePassL_perm _
    have hl'len : l'.length = n - i - 1 := by
      have h1 := hpassperm.length_eq
      rw [hLm] at h1
      simp only [List.length_append, List.length_singleton, List.length_take] at h1
      omega
    have hrarr : r.arr = l' ++ m :: arr.drop (n - i) := by
      rw [hbr, hsl0, hLm, splice]
      simp
    have hrlen : r.arr.length = n := by
      rw [hr, bubbleInner_length, hlen]
    -- facts feeding the induction hypothesis
    have hmem_m : m ∈ arr.take (n - i) := by
      have : m ∈ bubblePassL (arr.take (n - i)) := by
        rw [hLm]
        simp
      exact hpassperm.mem_iff.mp this
    have hdropr : r.arr.drop (n - (i + 1)) = m :: arr.drop (n - i) := by
      rw [hrarr]
      exact List.drop_left' (show l'.length = n - (i + 1) by omega)
    have htaker : r.arr.take (n - (i + 1)) = l' := by
      rw [hrarr, show n - (i + 1) = l'.length from by omega]
      exact List.take_left' rfl
    have hsorted' : List.Sorted (· ≤ ·) (r.arr.drop (n - (i + 1))) := by
      rw [hdropr]
      refine List.sorted_cons.mpr ⟨?_, hsortedS⟩
      intro b hb
      exact hdom m hmem_m b hb
    have hdom' : ∀ x ∈ r.arr.take (n - (i + 1)),
        ∀ y ∈ r.arr.drop (n - (i + 1)), x ≤ y := by
      rw [htaker, hdropr]
      intro x hx y hy
      have hxtake : x ∈ arr.take (n - i) := by
        apply hpassperm.mem_iff.mp
        rw [hLm]
        exact List.mem_append_left _ hx
      simp only [List.mem_cons] at hy
      rcases hy with rfl | hy
      · exact hmax x hxtake
      · exact hdom x hxtake y hy
    obtain ⟨hs2, hp2⟩ := ih hrlen (by omega) hsorted' hdom'
    refine ⟨hs2, ?_⟩
    refine hp2.trans ?_
    rw [hbr, hsl0]
    exact splice_perm (by rw [hsl0]; exact hpassperm) (by omega)
  | case2 arr i n h =>
    intro hlen hin hsortedS hdom
    rw [bubbleOuter]
    simp only [h, dite_false]
    have hi : n - i = 0 := by omega
    constructor
    · have hdropall : arr.drop (n - i) = arr := by
        rw [hi]
        simp
      rw [← hdropall]
      exact hsortedS
    · exact List.Perm.refl arr

/-- Bubble sort claim core: replaying the bubble log sorts the input. -/
theorem bubble_sort_actions_replay (values : List Nat) :
    List.Sorted (· ≤ ·) (replay (bubble_sort_actions values) values) ∧
      (replay (bubble_sort_actions values) values).Perm values := by
  unfold bubble_sort_actions
  rw [bubbleOuter_replay]
  have hdrop : values.drop (values.length - 0) = [] := by
    simp
  exact bubbleOuter_sorted values 0 values.length rfl (by omega)
    (by rw [hdrop]; simp)
    (by
      intro x hx y hy
      rw [hdrop] at hy
      simp at hy)

/-! ## Counting actions by kind -/

theorem countKind_append (k : ActionKind) (A B : List Action) :
    countKind k (A ++ B) = countKind k A + countKind k B := by
  simp [countKind, List.countP_append]

theorem countKind_cons (k : ActionKind) (a : Action) (B : List Action) :
    countKind k (a :: B) = (if a.kind = k then 1 else 0) + countKind k B := by
  by_cases h : a.kind = k
  · simp [countKind, List.countP_cons, h]
    omega
  · simp [countKind, List.countP_cons, h]

theorem countKind_eq_zero {k : ActionKind} {A : List Action}
    (h : ∀ a ∈ A, a.kind ≠ k) : countKind k A = 0 := by
  simp only [countKind]
  rw [List.countP_eq_zero]
  intro a ha
  simp [h a ha]

theorem bubbleOuter_count_done :
    ∀ (arr : List Nat) (i n : Nat),
      countKind ActionKind.done (bubbleOuter arr i n).acts = n - i := by
  intro arr i n
  induction arr, i, n using bubbleOuter.induct with
  | case1 arr i n h r ih =>
    have hr : r = bubbleInner arr 0 (n - 1 - i) := rfl
    rw [bubbleOuter]
    simp only [h, dite_true]
    rw [← hr, countKind_append, countKind_cons]
    rw [countKind_eq_zero (fun a ha => by
      rcases bubbleInner_acts arr 0 (n - 1 - i) a (by rw [hr] at ha; exact ha)
        with hk | hk <;> simp [hk])]
    rw [ih]
    simp
    omega
  | case2 arr i n h =>
    rw [bubbleOuter]
    simp only [h, dite_false]
    rw [countKind_eq_zero (fun a ha => by simp at ha)]
    omega

theorem bubbleOuter_last_done :
    ∀ (arr : List Nat) (i n : Nat), i < n →
      ∃ d, (bubbleOuter arr i n).acts.getLast? = some d ∧
        d.kind = ActionKind.done := by
  intro arr i n
  induction arr, i, n using bubbleOuter.induct with
  | case1 arr i n h r ih =>
    intro _
    have hr : r = bubbleInner arr 0 (n - 1 - i) := rfl
    rw [bubbleOuter]
    simp only [h, dite_true]
    rw [← hr]
    by_cases h2 : i + 1 < n
    · obtain ⟨d, hd, hk⟩ := ih h2
      refine ⟨d, ?_, hk⟩
      rw [List.getLast?_append]
      rw [show (⟨ActionKind.done, n - 1 - i, n - 1 - i, r.arr.getD (n - 1 - i) 0,
          0, 0, 0⟩ : Action) :: (bubbleOuter r.arr (i + 1) n).acts
          = [⟨ActionKind.done, n - 1 - i, n - 1 - i, r.arr.getD (n - 1 - i) 0,
            0, 0, 0⟩] ++ (bubbleOuter r.arr (i + 1) n).acts from rfl]
      rw [List.getLast?_append, hd]
      rfl
    · refine ⟨⟨ActionKind.done, n - 1 - i, n - 1 - i, r.arr.getD (n - 1 - i) 0,
        0, 0, 0⟩, ?_, rfl⟩
      have hB : (bubbleOuter r.arr (i + 1) n).acts = [] := by
        rw [bubbleOuter]
        simp [h2]
      rw [hB, List.getLast?_concat]
  | case2 arr i n h =>
    intro hc
    omega

/-! ## Interleaver characterization -/

theorem heads_tails_flatten_perm {α : Type} :
    ∀ ls : List (List α),
      (ls.filterMap List.head? ++ (ls.map List.tail).flatten).Perm ls.flatten := by
  intro ls
  induction ls with
  | nil => simp
  | cons l ls ih =>
    cases l with
    | nil =>
      simp only [List.filterMap_cons, List.head?_nil, List.map_cons, List.tail_nil,
        List.flatten_cons, List.flatten_cons, List.nil_append]
      simpa using ih
    | cons x t =>
      simp only [List.filterMap_cons, List.head?_cons, List.map_cons, List.tail_cons,
        List.flatten_cons, List.flatten_cons, List.cons_append]
      refine List.Perm.cons x ?_
      rw [← List.append_assoc]
      refine List.Perm.trans (List.perm_append_comm.append_right _) ?_
      rw [List.append_assoc]
      exact ih.append_left t

theorem interleave_perm {α : Type} :
    ∀ ls : List (List α), (interleave_actions ls).Perm ls.flatten := by
  intro ls
  induction ls using interleave_actions.induct with
  | case1 ls h =>
    rw [interleave_actions]
    simp only [h, dite_true]
    have : ∀ l ∈ ls, l = [] := by
      intro l hl
      have := (List.all_eq_true.mp h) l hl
      simpa using this
    have hfl : ls.flatten = [] := by
      rw [List.flatten_eq_nil_iff]
      exact this
    rw [hfl]
  | case2 ls h ih =>
    rw [interleave_actions]
    simp only [h, dite_false]
    exact (ih.append_left _).trans (heads_tails_flatten_perm ls)

theorem interleave_length {α : Type} (ls : List (List α)) :
    (interleave_actions ls).length = (ls.map List.length).sum := by
  rw [(interleave_perm ls).length_eq]
  simp

theorem filter_filterMap_head_eq_nil {α : Type} {p : α → Bool} {A : List (List α)}
    (h : ∀ l' ∈ A, ∀ a ∈ l', p a = false) :
    (A.filterMap List.head?).filter p = [] := by
  rw [List.filter_eq_nil_iff]
  intro a ha
  obtain ⟨l', hl', hh⟩ := List.mem_filterMap.mp ha
  have : a ∈ l' := by
    cases l' with
    | nil => simp at hh
    | cons x t =>
      simp only [List.head?_cons, Option.some_inj] at hh
      subst hh
      simp
  simp [h l' hl' a this]

theorem tail_free {α : Type} {p : α → Bool} {l : List α}
    (h : ∀ a ∈ l, p a = false) : ∀ a ∈ l.tail, p a = false := by
  intro a ha
  exact h a (List.mem_of_mem_tail ha)

/-- Filtering the interleaved output by a predicate that only one input
log satisfies recovers that log's filtered content (order included). -/
theorem interleave_filter {α : Type} (p : α → Bool) :
    ∀ ls : List (List α), ∀ (A B : List (List α)) (l : List α),
      ls = A ++ l :: B →
      (∀ l' ∈ A, ∀ a ∈ l', p a = false) →
      (∀ l' ∈ B, ∀ a ∈ l', p a = false) →
      (interleave_actions ls).filter p = l.filter p := by
  intro ls
  induction ls using interleave_actions.induct with
  | case1 ls h =>
    intro A B l hls hA hB
    rw [interleave_actions]
    simp only [h, dite_true]
    have hl : l = [] := by
      have hmem : l ∈ ls := by
        rw [hls]
        exact List.mem_append_right _ (by simp)
      have := (List.all_eq_true.mp h) l hmem
      simpa using this
    rw [hl]
  | case2 ls h ih =>
    intro A B l hls hA hB
    rw [interleave_actions, dif_neg h]
    rw [List.filter_append]
    have htails : ls.map List.tail = A.map List.tail ++ l.tail :: B.map List.tail := by
      rw [hls]
      simp
    have hArec : ∀ l' ∈ A.map List.tail, ∀ a ∈ l', p a = false := by
      intro l' hl' a ha
      obtain ⟨m, hm, rfl⟩ := List.mem_map.mp hl'
      exact tail_free (hA m hm) a ha
    have hBrec : ∀ l' ∈ B.map List.tail, ∀ a ∈ l', p a = false := by
      intro l' hl' a ha
      obtain ⟨m, hm, rfl⟩ := List.mem_map.mp hl'
      exact tail_free (hB m hm) a ha
    rw [ih (A.map List.tail) (B.map List.tail) l.tail htails hArec hBrec]
    -- the heads contribute exactly the head of `l` (if it passes `p`)
    rw [hls]
    rw [List.filterMap_append, List.filter_append,
      filter_filterMap_head_eq_nil hA]
    simp only [List.filterMap_cons, List.nil_append]
    cases l with
    | nil =>
      simp only [List.head?_nil, List.tail_nil]
      rw [filter_filterMap_head_eq_nil hB]
      rfl
    | cons x t =>
      simp only [List.head?_cons, List.tail_cons]
      rw [List.filter_cons, List.filter_cons, filter_filterMap_head_eq_nil hB]
      by_cases hx : p x
      · simp [hx]
      · simp [hx]

/-! ## Replay of write-disjoint interleaved logs -/

theorem lastWrite_nil (i : Nat) : lastWrite [] i = none := rfl

theorem replay_getElem? :
    ∀ (acts : List Action) (x : List Nat),
      NoSwap acts →
      (∀ a ∈ acts, a.kind = ActionKind.write → a.i < x.length) →
      ∀ i, (replay acts x)[i]? =
        match lastWrite acts i with
        | some v => some v
        | none => x[i]? := by
  intro acts
  induction acts using List.reverseRecOn with
  | nil =>
    intro x _ _ i
    simp [replay, lastWrite]
  | append_singleton as a ih =>
    intro x hnos hb i
    have hnos' : NoSwap as := fun b hb' => hnos b (List.mem_append_left _ hb')
    have hb' : ∀ b ∈ as, b.kind = ActionKind.write → b.i < x.length :=
      fun b hbm => hb b (List.mem_append_left _ hbm)
    have hrep : replay (as ++ [a]) x = applyAction (replay as x) a := by
      rw [replay_append]
      rfl
    have hlw : lastWrite (as ++ [a]) i =
        if pw i a then some a.value else lastWrite as i := by
      unfold lastWrite
      rw [List.filter_append]
      by_cases hpa : pw i a
      · simp [hpa, List.filter_cons]
      · simp [hpa, List.filter_cons]
    rw [hrep, hlw]
    by_cases hpa : pw i a
    · -- `a` is a write to `i`
      have hka : a.kind = ActionKind.write ∧ a.i = i := by
        simpa [pw] using hpa
      have hix : i < x.length := hka.2 ▸ hb a (by simp) hka.1
      have happ : applyAction (replay as x) a = (replay as x).set i a.value := by
        unfold applyAction
        rw [hka.1, hka.2]
      rw [happ]
      simp only [hpa, if_true]
      rw [List.getElem?_set_self (by rw [length_replay]; exact hix)]
    · simp only [hpa, if_false]
      by_cases hka : a.kind = ActionKind.write
      · -- a write to another index
        have hne : a.i ≠ i := by
          intro hc
          exact hpa (by simp [pw, hka, hc])
        have happ : applyAction (replay as x) a = (replay as x).set a.i a.value := by
          unfold applyAction
          rw [hka]
        rw [happ, List.getElem?_set_ne hne]
        exact ih x hnos' hb' i
      · rw [applyAction_of_noop (hnos a (by simp)) hka]
        exact ih x hnos' hb' i

theorem replay_eq_of_lastWrite_eq {L M : List Action} {x : List Nat}
    (hL : NoSwap L) (hM : NoSwap M)
    (hbL : ∀ a ∈ L, a.kind = ActionKind.write → a.i < x.length)
    (hbM : ∀ a ∈ M, a.kind = ActionKind.write → a.i < x.length)
    (h : ∀ i, lastWrite L i = lastWrite M i) :
    replay L x = replay M x := by
  apply List.ext_getElem?
  intro i
  rw [replay_getElem? L x hL hbL i, replay_getElem? M x hM hbM i, h i]

theorem filter_flatten_free {p : Action → Bool} {A : List (List Action)}
    (h : ∀ l' ∈ A, ∀ a ∈ l', p a = false) : (A.flatten).filter p = [] := by
  rw [List.filter_eq_nil_iff]
  intro a ha
  obtain ⟨l', hl', hal⟩ := List.mem_flatten.mp ha
  simp [h l' hl' a hal]

theorem lastWrite_interleave {ls : List (List Action)}
    (hdisj : List.Pairwise WDisj ls) (i : Nat) :
    lastWrite (interleave_actions ls) i = lastWrite ls.flatten i := by
  unfold lastWrite
  by_cases hex : ∃ l ∈ ls, ∃ a ∈ l, pw i a = true
  · obtain ⟨l, hl, a0, ha0, hpa0⟩ := hex
    obtain ⟨A, B, hls⟩ := List.append_of_mem hl
    have hpa0' : a0.kind = ActionKind.write ∧ a0.i = i := by
      simpa [pw] using hpa0
    rw [hls] at hdisj
    rw [List.pairwise_append] at hdisj
    obtain ⟨hpA, hpLB, hAL⟩ := hdisj
    have hfreeA : ∀ l' ∈ A, ∀ b ∈ l', pw i b = false := by
      intro l' hl' b hbm
      by_contra hc
      have hbw : b.kind = ActionKind.write ∧ b.i = i := by
        simpa [pw] using hc
      exact (hAL l' hl' l (by simp)) b hbm a0 ha0 hbw.1 hpa0'.1
        (by rw [hbw.2, hpa0'.2])
    have hfreeB : ∀ l' ∈ B, ∀ b ∈ l', pw i b = false := by
      intro l' hl' b hbm
      by_contra hc
      have hbw : b.kind = ActionKind.write ∧ b.i = i := by
        simpa [pw] using hc
      exact ((List.pairwise_cons.mp hpLB).1 l' hl') a0 ha0 b hbm hpa0'.1 hbw.1
        (by rw [hbw.2, hpa0'.2])
    rw [hls]
    rw [interleave_filter (pw i) (A ++ l :: B) A B l rfl hfreeA hfreeB]
    rw [show (A ++ l :: B).flatten = A.flatten ++ (l ++ B.flatten) from by
      simp]
    rw [List.filter_append, List.filter_append,
      filter_flatten_free hfreeA, filter_flatten_free hfreeB]
    simp
  · push_neg at hex
    have hfree : ∀ l ∈ ls, ∀ a ∈ l, pw i a = false := by
      intro l hl a ha
      have := hex l hl a ha
      simpa using this
    have h1 : (interleave_actions ls).filter (pw i) = [] := by
      rw [List.filter_eq_nil_iff]
      intro a ha
      have hmem : a ∈ ls.flatten := (interleave_perm ls).mem_iff.mp ha
      obtain ⟨l', hl', hal⟩ := List.mem_flatten.mp hmem
      simp [hfree l' hl' a hal]
    rw [h1, filter_flatten_free hfree]

/-- Replaying a deterministic interleaving of pairwise write-disjoint,
swap-free logs has the same effect as replaying the logs one after the
other. -/
theorem replay_interleave {ls : List (List Action)} {x : List Nat}
    (hdisj : List.Pairwise WDisj ls)
    (hnos : ∀ l ∈ ls, NoSwap l)
    (hb : ∀ l ∈ ls, ∀ a ∈ l, a.kind = ActionKind.write → a.i < x.length) :
    replay (interleave_actions ls) x = replay ls.flatten x := by
  have hmem : ∀ a ∈ interleave_actions ls, a ∈ ls.flatten :=
    fun a ha => (interleave_perm ls).mem_iff.mp ha
  apply replay_eq_of_lastWrite_eq
  · intro a ha
    obtain ⟨l', hl', hal⟩ := List.mem_flatten.mp (hmem a ha)
    exact hnos l' hl' a hal
  · intro a ha
    obtain ⟨l', hl', hal⟩ := List.mem_flatten.mp ha
    exact hnos l' hl' a hal
  · intro a ha hk
    obtain ⟨l', hl', hal⟩ := List.mem_flatten.mp (hmem a ha)
    exact hb l' hl' a hal hk
  · intro a ha hk
    obtain ⟨l', hl', hal⟩ := List.mem_flatten.mp ha
    exact hb l' hl' a hal hk
  · exact lastWrite_interleave hdisj

theorem replay_flatten_cons (l : List Action) (ls : List (List Action))
    (x : List Nat) :
    replay ((l :: ls).flatten) x = replay ls.flatten (replay l x) := by
  rw [List.flatten_cons, replay_append]

/-! ## Parallel generator: phase 1 (chunk sorting) -/

theorem take_eq_full {x y : List Nat} {m : Nat} (hlx : x.length = y.length)
    (hm : x.length ≤ m) (h : x.take m = y.take m) : x = y := by
  rw [List.take_of_length_le hm, List.take_of_length_le (by omega)] at h
  exact h

theorem chunkLoop_main :
    ∀ (arr : List Nat) (n cs tid T : Nat), 0 < cs → arr.length = n →
      n ≤ T * cs →
      ((chunkLoop arr n cs tid T).2.length = n) ∧
      ((chunkLoop arr n cs tid T).2.Perm arr) ∧
      ((chunkLoop arr n cs tid T).2.take (tid * cs) = arr.take (tid * cs)) ∧
      (∀ k, tid ≤ k →
        List.Sorted (· ≤ ·)
          (slice (chunkLoop arr n cs tid T).2 (k * cs) (min ((k + 1) * cs) n))) ∧
      (∀ L ∈ (chunkLoop arr n cs tid T).1, NoSwap L) ∧
      (∀ L ∈ (chunkLoop arr n cs tid T).1, ∀ a ∈ L,
        a.kind ≠ ActionKind.done ∧ a.kind ≠ ActionKind.mergePhase ∧
        (a.kind = ActionKind.write → tid * cs ≤ a.i ∧ a.i < n)) ∧
      (List.Pairwise WDisj (chunkLoop arr n cs tid T).1) ∧
      (replay (chunkLoop arr n cs tid T).1.flatten arr = (chunkLoop arr n cs tid T).2) := by
  intro arr n cs tid T
  induction arr, n, cs, tid, T using chunkLoop.induct with
  | case1 arr n cs tid T h start hsk ih =>
    intro hcs hlen hTcs
    have hstart : start = tid * cs := rfl
    have hmul1 : (tid + 1) * cs = tid * cs + cs := by ring
    have hmul2 : (tid + 1) * cs ≤ T * cs := Nat.mul_le_mul_right cs (by omega)
    rw [chunkLoop, dif_pos h, if_pos (show tid * cs ≥ n from hsk)]
    dsimp only
    obtain ⟨i1, i2, i3, i4, i5, i6, i7, i8⟩ := ih hcs hlen hTcs
    refine ⟨i1, i2, ?_, ?_, ?_, ?_, ?_, ?_⟩
    · -- take: start ≥ n = length, so both takes are the whole lists
      rw [List.take_of_length_le (by omega), List.take_of_length_le (by omega)]
      exact take_eq_full (by omega)
        (by rw [i1]; omega : (chunkLoop arr n cs (tid + 1) T).2.length ≤ (tid + 1) * cs) i3
    · intro k hk
      by_cases hkt : tid + 1 ≤ k
      · exact i4 k hkt
      · have hke : k = tid := by omega
        subst hke
        rw [slice_nil (by omega : min ((k + 1) * cs) n ≤ k * cs)]
        simp
    · intro L hL
      simp only [List.mem_cons] at hL
      rcases hL with rfl | hL
      · intro a ha
        simp at ha
      · exact i5 L hL
    · intro L hL
      simp only [List.mem_cons] at hL
      rcases hL with rfl | hL
      · intro a ha
        simp at ha
      · intro a ha
        obtain ⟨k1, k2, k3⟩ := i6 L hL a ha
        exact ⟨k1, k2, fun hw => ⟨by have := (k3 hw).1; omega, (k3 hw).2⟩⟩
    · refine List.pairwise_cons.mpr ⟨?_, i7⟩
      intro L hL a ha
      simp at ha
    · rw [replay_flatten_cons, replay_nil]
      exact i8
  | case2 arr n cs tid T h start hsk en chunk g ih =>
    intro hcs hlen hTcs
    have hstart : start = tid * cs := rfl
    have hmul1 : (tid + 1) * cs = tid * cs + cs := by ring
    have hmul2 : (tid + 1) * cs ≤ T * cs := Nat.mul_le_mul_right cs (by omega)
    have hen : en = min (start + cs) n := rfl
    have hchunk : chunk = slice arr start en := rfl
    have hg : g = mergeSortRec chunk 0 chunk.length start 0 tid := rfl
    have hsn : start < n := by omega
    have hse : start ≤ en := by rw [hen]; omega
    have hennn : en ≤ n := by rw [hen]; omega
    have hchlen : chunk.length = en - start := by
      rw [hchunk]
      exact length_slice hse (by omega)
    -- the sorted chunk
    obtain ⟨hgarr, hgrep⟩ := mergeSortRec_main chunk 0 chunk.length start 0 tid
      (by omega) (le_refl _)
    rw [← hg] at hgarr hgrep
    have hms : g.arr = msList chunk := by
      rw [hgarr, slice_zero_length, splice_full]
    have hmslen : (msList chunk).length = en - start := by
      rw [msList_length, hchlen]
    have harr2len : (splice arr start en g.arr).length = n := by
      rw [hms, length_splice (by omega) hse (by omega)]
      exact hlen
    rw [chunkLoop, dif_pos h, if_neg (show ¬ tid * cs ≥ n from hsk)]
    dsimp only
    obtain ⟨i1, i2, i3, i4, i5, i6, i7, i8⟩ :=
      ih hcs harr2len hTcs
    have hperm2 : (splice arr start en g.arr).Perm arr := by
      apply splice_perm _ hse
      rw [hms, ← hchunk]
      exact msList_perm chunk
    have htake2 : (splice arr start en g.arr).take start = arr.take start := by
      exact take_splice (by omega)
    have hkinds := mergeSortRec_acts chunk 0 chunk.length start 0 tid
      (by omega) (le_refl _)
    rw [← hg] at hkinds
    have hgwb : ∀ a ∈ g.acts, a.kind = ActionKind.write →
        start ≤ a.i ∧ a.i < en := by
      intro a ha hw
      rcases hkinds a ha with k | k | k | ⟨k, kb1, kb2⟩
      · rw [hw] at k; cases k
      · rw [hw] at k; cases k
      · rw [hw] at k; cases k
      · exact ⟨by omega, by omega⟩
    refine ⟨i1, i2.trans hperm2, ?_, ?_, ?_, ?_, ?_, ?_⟩
    · -- take (tid * cs) preserved
      have h1 := take_eq_of_take_eq
        (show tid * cs ≤ (tid + 1) * cs by omega) i3
      rw [h1, ← hstart, htake2]
    · -- per-chunk sortedness
      intro k hk
      by_cases hkt : tid + 1 ≤ k
      · exact i4 k hkt
      · have hke : k = tid := by omega
        subst hke
        have hidx1 : k * cs = start := by rw [hstart]
        have hidx2 : min ((k + 1) * cs) n = en := by
          rw [hen, hstart, show (k + 1) * cs = k * cs + cs from by ring]
        rw [hidx1, hidx2]
        have htk : (chunkLoop (splice arr start en g.arr) n cs (k + 1) T).2.take en
            = (splice arr start en g.arr).take en :=
          take_eq_of_take_eq (by omega) i3
        have hsl : slice (chunkLoop (splice arr start en g.arr) n cs (k + 1) T).2
            start en = slice (splice arr start en g.arr) start en := by
          exact slice_congr htk
        rw [hsl, hms, slice_splice_middle hmslen hse (by omega)]
        exact msList_sorted chunk
    · -- no swaps
      intro L hL
      simp only [List.mem_cons] at hL
      rcases hL with rfl | hL
      · intro a ha
        rcases hkinds a ha with k | k | k | ⟨k, _, _⟩ <;> simp [k]
      · exact i5 L hL
    · -- kinds and write bounds
      intro L hL
      simp only [List.mem_cons] at hL
      rcases hL with rfl | hL
      · intro a ha
        rcases hkinds a ha with k | k | k | ⟨k, kb1, kb2⟩ <;>
          refine ⟨by simp [k], by simp [k], ?_⟩ <;> intro hw
        · rw [hw] at k; cases k
        · rw [hw] at k; cases k
        · rw [hw] at k; cases k
        · exact ⟨by omega, by omega⟩
      · intro a ha
        obtain ⟨k1, k2, k3⟩ := i6 L hL a ha
        exact ⟨k1, k2, fun hw => ⟨by have := (k3 hw).1; omega, (k3 hw).2⟩⟩
    · -- pairwise write-disjointness
      refine List.pairwise_cons.mpr ⟨?_, i7⟩
      intro L hL a ha b hb hwa hwb
      have h1 : a.i < en := (hgwb a ha hwa).2
      have h2 : (tid + 1) * cs ≤ b.i := ((i6 L hL b hb).2.2 hwb).1
      omega
    · -- replay
      rw [replay_flatten_cons]
      have hrepg : replay g.acts arr = splice arr start en g.arr := by
        have := hgrep arr (by omega)
          (by
            rw [show start + 0 = start from rfl, slice_zero_length,
              show start + chunk.length = en by omega, ← hchunk])
        rw [show start + 0 = start from rfl, slice_zero_length,
          show start + chunk.length = en by omega, ← hms] at this
        exact this
      rw [hrepg]
      exact i8
  | case3 arr n cs tid T h =>
    intro hcs hlen hTcs
    rw [chunkLoop, dif_neg h]
    refine ⟨hlen, List.Perm.refl arr, rfl, ?_, ?_, ?_, ?_, rfl⟩
    · intro k hk
      rw [slice_nil]
      · simp
      · have hTk : T * cs ≤ k * cs := Nat.mul_le_mul_right cs (by omega)
        omega
    · intro L hL
      simp at hL
    · intro L hL
      simp at hL
    · simp

/-! ## Parallel generator: phase 2 (tournament merge) -/

theorem merge_natLe_sorted {l1 l2 : List Nat} (h1 : List.Sorted (· ≤ ·) l1)
    (h2 : List.Sorted (· ≤ ·) l2) :
    List.Sorted (· ≤ ·) (List.merge l1 l2 natLe) := by
  rw [← pairwise_natLe_iff]
  apply List.sorted_merge
  · intro a b c hab hbc
    simp only [natLe_iff] at *
    omega
  · intro a b
    simp only [natLe]
    by_cases hab : a ≤ b
    · simp [hab]
    · simp [hab]
      omega
  · exact pairwise_natLe_iff.mpr h1
  · exact pairwise_natLe_iff.mpr h2

theorem phase2Inner_main :
    ∀ (arr : List Nat) (n step left tcount T : Nat) (hs : 0 < step),
      arr.length = n →
      (∀ k, List.Sorted (· ≤ ·)
        (slice arr (left + k * step) (min (left + k * step + step) n))) →
      ((phase2Inner arr n step left tcount T hs).2.length = n) ∧
      ((phase2Inner arr n step left tcount T hs).2.Perm arr) ∧
      ((phase2Inner arr n step left tcount T hs).2.take left = arr.take left) ∧
      (∀ k, List.Sorted (· ≤ ·)
        (slice (phase2Inner arr n step left tcount T hs).2
          (left + k * (2 * step)) (min (left + k * (2 * step) + 2 * step) n))) ∧
      (∀ L ∈ (phase2Inner arr n step left tcount T hs).1, NoSwap L) ∧
      (∀ L ∈ (phase2Inner arr n step left tcount T hs).1, ∀ a ∈ L,
        a.kind ≠ ActionKind.done ∧ a.kind ≠ ActionKind.mergePhase ∧
        (a.kind = ActionKind.write → left ≤ a.i ∧ a.i < n)) ∧
      (List.Pairwise WDisj (phase2Inner arr n step left tcount T hs).1) ∧
      (replay (phase2Inner arr n step left tcount T hs).1.flatten arr
        = (phase2Inner arr n step left tcount T hs).2) := by
  intro arr n step left tcount T hs
  induction arr, n, step, left, tcount, T, hs using phase2Inner.induct with
  | case1 arr n step left tcount T hs hleft mid right hmr g ih =>
    intro hlen hsort
    have hmid : mid = min (left + step) n := rfl
    have hright : right = min (left + 2 * step) n := rfl
    have hg : g = mergeAux arr left mid right 0 0 (tcount % T) := rfl
    have hlm : left ≤ mid := by rw [hmid]; omega
    have hmr' : mid ≤ right := by rw [hmid, hright]; omega
    have hrn : right ≤ n := by rw [hright]; omega
    have hmideq : mid = left + step := by
      have h2 := hmr
      rw [hmid, hright] at h2
      rw [hmid]
      omega
    have hsorted1 : List.Sorted (· ≤ ·) (slice arr left mid) := by
      have h0 := hsort 0
      rw [show left + 0 * step = left by ring] at h0
      rw [hmid]
      exact h0
    have hsorted2 : List.Sorted (· ≤ ·) (slice arr mid right) := by
      have h1 := hsort 1
      rw [show left + 1 * step = left + step by ring,
        show left + step + step = left + 2 * step by ring] at h1
      rw [hmideq, hright]
      exact h1
    have hgarr : g.arr = splice arr left right
        (List.merge (slice arr left mid) (slice arr mid right) natLe) := by
      rw [hg]
      exact mergeAux_arr hlm hmr' (by omega)
    have hmglen : (List.merge (slice arr left mid) (slice arr mid right)
        natLe).length = right - left :=
      merge_slice_length hlm hmr' (by omega)
    have hglen : g.arr.length = n := by
      rw [hgarr, length_splice hmglen (by omega) (by omega), hlen]
    have hgtake : g.arr.take left = arr.take left := by
      rw [hgarr]
      exact take_splice (by omega)
    have hsort' : ∀ k, List.Sorted (· ≤ ·)
        (slice g.arr (left + 2 * step + k * step)
          (min (left + 2 * step + k * step + step) n)) := by
      intro k
      by_cases hb : n ≤ left + 2 * step + k * step
      · rw [slice_nil (by omega)]
        simp
      · have hsr : slice g.arr (left + 2 * step + k * step)
            (min (left + 2 * step + k * step + step) n)
            = slice arr (left + 2 * step + k * step)
              (min (left + 2 * step + k * step + step) n) := by
          rw [hgarr]
          exact slice_splice_right hmglen (by omega) (by omega) (by omega)
        rw [hsr]
        have hk2 := hsort (k + 2)
        rw [show left + (k + 2) * step = left + 2 * step + k * step by ring] at hk2
        exact hk2
    obtain ⟨i1, i2, i3, i4, i5, i6, i7, i8⟩ := ih hglen hsort'
    have hkinds := @mergeAux_acts arr left mid right 0 0 (tcount % T)
      hlm hmr' (by omega)
    rw [← hg] at hkinds
    have hgperm : g.arr.Perm arr := by
      rw [hgarr]
      apply splice_perm _ (by omega)
      exact (List.merge_perm_append natLe).trans
        (by rw [slice_append_slice hlm hmr'])
    rw [phase2Inner, dif_pos hleft]
    rw [← hmid, ← hright, if_pos hmr]
    dsimp only
    rw [← hg]
    refine ⟨i1, i2.trans hgperm, ?_, ?_, ?_, ?_, ?_, ?_⟩
    · rw [take_eq_of_take_eq (show left ≤ left + 2 * step by omega) i3, hgtake]
    · intro k
      match k with
      | 0 =>
        rw [show left + 0 * (2 * step) = left by ring, ← hright]
        have htk := take_eq_of_take_eq
          (show right ≤ left + 2 * step by rw [hright]; omega) i3
        rw [slice_congr htk, hgarr, slice_splice_middle hmglen (by omega) (by omega)]
        exact merge_natLe_sorted hsorted1 hsorted2
      | Nat.succ k =>
        have hk := i4 k
        rw [show left + 2 * step + k * (2 * step) = left + (k + 1) * (2 * step)
          by ring] at hk
        exact hk
    · intro L hL
      simp only [List.mem_cons] at hL
      rcases hL with rfl | hL
      · intro a ha
        rcases hkinds a ha with hk | hk | hk | ⟨hk, _, _⟩ <;> simp [hk]
      · exact i5 L hL
    · intro L hL
      simp only [List.mem_cons] at hL
      rcases hL with rfl | hL
      · intro a ha
        rcases hkinds a ha with hk | hk | hk | ⟨hk, hb1, hb2⟩ <;>
          refine ⟨by simp [hk], by simp [hk], ?_⟩ <;> intro hw
        · rw [hw] at hk; cases hk
        · rw [hw] at hk; cases hk
        · rw [hw] at hk; cases hk
        · exact ⟨by omega, by omega⟩
      · intro a ha
        obtain ⟨k1, k2, k3⟩ := i6 L hL a ha
        exact ⟨k1, k2, fun hw => ⟨by have := (k3 hw).1; omega, (k3 hw).2⟩⟩
    · refine List.pairwise_cons.mpr ⟨?_, i7⟩
      intro L hL a ha b hb hwa hwb
      rcases hkinds a ha with hk | hk | hk | ⟨hk, hb1, hb2⟩
      · rw [hwa] at hk; cases hk
      · rw [hwa] at hk; cases hk
      · rw [hwa] at hk; cases hk
      · have h2 : left + 2 * step ≤ b.i := ((i6 L hL b hb).2.2 hwb).1
        omega
    · rw [replay_flatten_cons]
      have hrepg : replay g.acts arr = g.arr := by
        rw [hg]
        have := @mergeAux_replay arr arr left mid right 0 0 (tcount % T)
          hlm hmr' (by omega) (by omega)
        rw [show (0 : Nat) + left = left from by omega,
          show (0 : Nat) + right = right from by omega] at this
        rw [this, ← hgarr, hg]
      rw [hrepg]
      exact i8
  | case2 arr n step left tcount T hs hleft mid right hmr ih =>
    intro hlen hsort
    have hmid : mid = min (left + step) n := rfl
    have hright : right = min (left + 2 * step) n := rfl
    have hstep : n ≤ left + step := by
      have := hmr
      rw [hmid, hright] at this
      omega
    have hsort' : ∀ k, List.Sorted (· ≤ ·)
        (slice arr (left + 2 * step + k * step)
          (min (left + 2 * step + k * step + step) n)) := by
      intro k
      rw [slice_nil (by omega)]
      simp
    obtain ⟨i1, i2, i3, i4, i5, i6, i7, i8⟩ := ih hlen hsort'
    rw [phase2Inner, dif_pos hleft]
    rw [← hmid, ← hright, if_neg hmr]
    have harr : (phase2Inner arr n step (left + 2 * step) tcount T hs).2 = arr :=
      take_eq_full (by rw [i1, hlen]) (by rw [i1]; omega) i3
    refine ⟨i1, i2, take_eq_of_take_eq (show left ≤ left + 2 * step by omega) i3,
      ?_, i5, ?_, i7, i8⟩
    · intro k
      match k with
      | 0 =>
        rw [show left + 0 * (2 * step) = left by ring, harr]
        have h0 := hsort 0
        rw [show left + 0 * step = left by ring] at h0
        rw [show min (left + step) n = n by omega] at h0
        rw [show min (left + 2 * step) n = n by omega]
        exact h0
      | k + 1 =>
        have hkk : 2 * step ≤ (k + 1) * (2 * step) :=
          Nat.le_mul_of_pos_left _ (by omega)
        rw [slice_nil (by omega)]
        simp
    · intro L hL a ha
      obtain ⟨k1, k2, k3⟩ := i6 L hL a ha
      exact ⟨k1, k2, fun hw => ⟨by have := (k3 hw).1; omega, (k3 hw).2⟩⟩
  | case3 arr n step left tcount T hs hleft =>
    intro hlen hsort
    rw [phase2Inner, dif_neg hleft]
    refine ⟨hlen, List.Perm.refl arr, rfl, ?_, ?_, ?_, ?_, rfl⟩
    · intro k
      rw [slice_nil (by omega)]
      simp
    · intro L hL
      simp at hL
    · intro L hL
      simp at hL
    · simp

theorem phase2Outer_main :
    ∀ (arr : List Nat) (n step level T : Nat) (hs : 0 < step),
      arr.length = n →
      (∀ k, List.Sorted (· ≤ ·)
        (slice arr (k * step) (min (k * step + step) n))) →
      ((phase2Outer arr n step level T hs).2.length = n) ∧
      ((phase2Outer arr n step level T hs).2.Perm arr) ∧
      (List.Sorted (· ≤ ·) (phase2Outer arr n step level T hs).2) ∧
      (∀ a ∈ (phase2Outer arr n step level T hs).1,
        a.kind ≠ ActionKind.done) ∧
      (replay (phase2Outer arr n step level T hs).1 arr
        = (phase2Outer arr n step level T hs).2) := by
  intro arr n step level T hs
  induction arr, n, step, level, T, hs using phase2Outer.induct with
  | case1 arr n step level T hs h r ih =>
    intro hlen hsort
    have hr : r = phase2Inner arr n step 0 0 T hs := rfl
    have hsort0 : ∀ k, List.Sorted (· ≤ ·)
        (slice arr (0 + k * step) (min (0 + k * step + step) n)) := by
      intro k
      rw [Nat.zero_add]
      exact hsort k
    obtain ⟨i1, i2, i3, i4, i5, i6, i7, i8⟩ :=
      phase2Inner_main arr n step 0 0 T hs hlen hsort0
    have hsort2 : ∀ k, List.Sorted (· ≤ ·)
        (slice (phase2Inner arr n step 0 0 T hs).2 (k * (step * 2))
          (min (k * (step * 2) + step * 2) n)) := by
      intro k
      have hk := i4 k
      rw [Nat.zero_add] at hk
      rw [show k * (step * 2) = k * (2 * step) by ring,
        show k * (2 * step) + step * 2 = k * (2 * step) + 2 * step by ring]
      exact hk
    obtain ⟨j1, j2, j3, j4, j5⟩ := ih i1 hsort2
    rw [phase2Outer, dif_pos h]
    dsimp only
    refine ⟨j1, j2.trans i2, j3, ?_, ?_⟩
    · intro a ha
      simp only [List.mem_cons, List.mem_append] at ha
      rcases ha with rfl | ha | ha
      · simp
      · have hmem : a ∈ (phase2Inner arr n step 0 0 T hs).1.flatten :=
          (interleave_perm _).mem_iff.mp ha
        obtain ⟨L, hL, haL⟩ := List.mem_flatten.mp hmem
        exact (i6 L hL a haL).1
      · exact j4 a ha
    · rw [replay_cons, applyAction_of_noop (by simp) (by simp), replay_append]
      rw [replay_interleave i7 i5 ?_]
      · rw [i8, j5]
      · intro L hL a haL hw
        have := (i6 L hL a haL).2.2 hw
        omega
  | case2 arr n step level T hs h =>
    intro hlen hsort
    rw [phase2Outer, dif_neg h]
    refine ⟨hlen, List.Perm.refl arr, ?_, ?_, rfl⟩
    · have h0 := hsort 0
      rw [Nat.zero_mul, Nat.zero_add] at h0
      rw [min_eq_right (by omega)] at h0
      rw [← hlen, slice_zero_length] at h0
      exact h0
    · intro a ha
      simp at ha

/-! ## Parallel generator: top level -/

theorem parallel_main (values : List Nat) (num_threads : Nat) :
    List.Sorted (· ≤ ·)
      (replay (parallel_merge_sort_actions values num_threads) values) ∧
    (replay (parallel_merge_sort_actions values num_threads) values).Perm values ∧
    countKind ActionKind.done (parallel_merge_sort_actions values num_threads) = 1 ∧
    (parallel_merge_sort_actions values num_threads).getLast? = some doneAction := by
  by_cases hn : values.length = 0
  · have hv : values = [] := List.length_eq_zero.mp hn
    subst hv
    rw [show parallel_merge_sort_actions [] num_threads = [doneAction] from rfl]
    refine ⟨?_, ?_, rfl, rfl⟩
    · rw [show replay [doneAction] [] = [] from rfl]
      exact List.sorted_nil
    · rw [show replay [doneAction] [] = [] from rfl]
  · simp only [parallel_merge_sort_actions]
    rw [dif_neg hn]
    set n := values.length with hn'
    set T := max (min num_threads n) 1 with hT'
    set cs := (n + T - 1) / T with hcs'
    have hT : 0 < T := le_max_right _ 1
    have hcs : 0 < cs := by
      rw [hcs']
      exact (Nat.one_le_div_iff hT).mpr (by omega)
    have hdm := Nat.div_add_mod (n + T - 1) T
    have hml : (n + T - 1) % T < T := Nat.mod_lt _ hT
    have hTcs : n ≤ T * cs := by
      rw [hcs']
      omega
    obtain ⟨c1, c2, c3, c4, c5, c6, c7, c8⟩ :=
      chunkLoop_main values n cs 0 T hcs hn'.symm hTcs
    have hsortc : ∀ k, List.Sorted (· ≤ ·)
        (slice (chunkLoop values n cs 0 T).2 (k * cs)
          (min (k * cs + cs) n)) := by
      intro k
      have hk := c4 k (Nat.zero_le k)
      rw [show (k + 1) * cs = k * cs + cs by ring] at hk
      exact hk
    obtain ⟨p1, p2s, p3, p4, p5⟩ :=
      phase2Outer_main (chunkLoop values n cs 0 T).2 n cs 1 T hcs c1 hsortc
    have hIb : ∀ l ∈ (chunkLoop values n cs 0 T).1, ∀ a ∈ l,
        a.kind = ActionKind.write → a.i < values.length := by
      intro l hl a ha hw
      have := (c6 l hl a ha).2.2 hw
      omega
    have hIr : replay (interleave_actions (chunkLoop values n cs 0 T).1) values
        = (chunkLoop values n cs 0 T).2 := by
      rw [replay_interleave c7 c5 hIb, c8]
    refine ⟨?_, ?_, ?_, ?_⟩
    · rw [replay_append, replay_append, hIr, p5,
        replay_of_noop (fun a ha => by
          simp only [List.mem_singleton] at ha
          subst ha
          exact ⟨by simp [doneAction], by simp [doneAction]⟩)]
      exact p3
    · rw [replay_append, replay_append, hIr, p5,
        replay_of_noop (fun a ha => by
          simp only [List.mem_singleton] at ha
          subst ha
          exact ⟨by simp [doneAction], by simp [doneAction]⟩)]
      exact p2s.trans c2
    · rw [countKind_append, countKind_append]
      rw [countKind_eq_zero (fun a ha => by
        have hmem : a ∈ (chunkLoop values n cs 0 T).1.flatten :=
          (interleave_perm _).mem_iff.mp ha
        obtain ⟨L, hL, haL⟩ := List.mem_flatten.mp hmem
        exact (c6 L hL a haL).1)]
      rw [countKind_eq_zero p4]
      rfl
    · rw [List.getLast?_concat]

theorem mergeSortRec_no_done {values : List Nat} :
    ∀ a ∈ (mergeSortRec values 0 values.length 0 0 0).acts,
      a.kind ≠ ActionKind.done := by
  intro a ha
  rcases mergeSortRec_acts values 0 values.length 0 0 0 (by omega) (le_refl _)
      a ha with k | k | k | ⟨k, _, _⟩ <;> simp [k]

theorem merge_sort_actions_done (values : List Nat) :
    countKind ActionKind.done (merge_sort_actions values) = 1 ∧
    (merge_sort_actions values).getLast? = some doneAction ∧
    merge_sort_actions [] = [doneAction] := by
  refine ⟨?_, ?_, ?_⟩
  · rw [merge_sort_actions, countKind_append,
      countKind_eq_zero mergeSortRec_no_done]
    rfl
  · rw [merge_sort_actions, List.getLast?_concat]
  · rw [merge_sort_actions, mergeSortRec]
    simp

/-! ## Engine: bars mirror the replay of the consumed prefix -/

theorem getD_value (bars : List Bar) (i : Nat) :
    (bars.getD i ⟨0, .idle⟩).value = (bars.map Bar.value).getD i 0 := by
  induction bars generalizing i with
  | nil => rfl
  | cons b bs ih =>
    cases i with
    | zero => rfl
    | succ n => exact ih n

theorem set_getD_self (l : List Nat) (i : Nat) :
    l.set i (l.getD i 0) = l := by
  induction l generalizing i with
  | nil => rfl
  | cons a as ih =>
    cases i with
    | zero => rfl
    | succ n =>
      show a :: as.set n (as.getD n 0) = a :: as
      rw [ih]

theorem map_value_set (bars : List Bar) (i : Nat) (b : Bar) :
    (bars.set i b).map Bar.value = (bars.map Bar.value).set i b.value :=
  List.map_set

theorem map_value_markBar (bars : List Bar) (idx : Nat) (st : BarState) :
    (markBar bars idx st).map Bar.value = bars.map Bar.value := by
  rw [markBar, map_value_set]
  have hv : (let b := bars.getD idx ⟨0, .idle⟩
      if b.state ≠ .sorted then (⟨b.value, st⟩ : Bar) else b).value
      = (bars.map Bar.value).getD idx 0 := by
    dsimp only
    split
    · exact getD_value bars idx
    · exact getD_value bars idx
  rw [hv, set_getD_self]

theorem map_value_swapBars (bars : List Bar) (i j : Nat) :
    (swapBars bars i j).map Bar.value = swapL (bars.map Bar.value) i j := by
  rw [swapBars, swapL, map_value_set, map_value_set, getD_value, getD_value]

theorem map_value_clearTransient (bars : List Bar) :
    (clearTransient bars).map Bar.value = bars.map Bar.value := by
  rw [clearTransient, List.map_map]
  congr 1
  funext b
  dsimp only [Function.comp]
  split <;> rfl

theorem engineApply_bars_value (s : EngineState) (a : Action) :
    (engineApply s a).bars.map Bar.value
      = applyAction (s.bars.map Bar.value) a := by
  obtain ⟨k, i, j, v, m, ti, th⟩ := a
  cases k <;>
    (simp only [engineApply, applyAction]
     try split_ifs
     all_goals
       simp [map_value_markBar, map_value_swapBars, map_value_set,
         List.map_map, Function.comp])

theorem engineApply_frame (s : EngineState) (a : Action) :
    (engineApply s a).actions = s.actions ∧
    (engineApply s a).cursor = s.cursor ∧
    (engineApply s a).initial_values = s.initial_values ∧
    (engineApply s a).mode = s.mode ∧
    (engineApply s a).step_delay = s.step_delay ∧
    (engineApply s a).num_threads = s.num_threads := by
  obtain ⟨k, i, j, v, m, ti, th⟩ := a
  cases k <;>
    (simp only [engineApply]
     try split_ifs
     all_goals simp)

/-- `step` with the two intermediate `let`-states flattened out. -/
theorem step_eq (s : EngineState) (dt : ℚ) :
    step s dt =
      if s.cursor ≥ s.actions.length then
        { s with bars := s.bars.map (fun b => ⟨b.value, .sorted⟩) }
      else if s.step_timer + dt < s.step_delay then
        { s with time_elapsed := s.time_elapsed + dt
                 step_timer := s.step_timer + dt }
      else
        { engineApply
            { s with time_elapsed := s.time_elapsed + dt
                     step_timer := 0
                     bars := clearTransient s.bars }
            (s.actions.getD s.cursor doneAction)
          with cursor := s.cursor + 1 } := rfl

theorem step_frame (s : EngineState) (dt : ℚ) :
    (step s dt).actions = s.actions ∧
    (step s dt).initial_values = s.initial_values ∧
    (step s dt).mode = s.mode ∧
    (step s dt).step_delay = s.step_delay ∧
    (step s dt).num_threads = s.num_threads := by
  rw [step_eq]
  split_ifs with h1 h2
  · exact ⟨rfl, rfl, rfl, rfl, rfl⟩
  · exact ⟨rfl, rfl, rfl, rfl, rfl⟩
  · obtain ⟨f1, f2, f3, f4, f5, f6⟩ := engineApply_frame
      { s with
        time_elapsed := s.time_elapsed + dt
        step_timer := 0
        bars := clearTransient s.bars }
      (s.actions.getD s.cursor doneAction)
    exact ⟨f1, f3, f4, f5, f6⟩

theorem take_succ_getD {l : List Action} {n : Nat} (h : n < l.length) :
    l.take (n + 1) = l.take n ++ [l.getD n doneAction] := by
  rw [List.take_succ, List.getElem?_eq_getElem h, List.getD_eq_getElem l _ h]
  rfl

/-- The joint invariant: cursor in bounds, and the bar values are exactly
the replay of the consumed prefix of the log against the initial values. -/
def BarsMirror (s : EngineState) : Prop :=
  s.cursor ≤ s.actions.length ∧
  s.bars.map Bar.value = replay (s.actions.take s.cursor) s.initial_values

theorem step_mirror (s : EngineState) (dt : ℚ) (h : BarsMirror s) :
    BarsMirror (step s dt) := by
  obtain ⟨hc, hm⟩ := h
  rw [BarsMirror, step_eq]
  split_ifs with h1 h2
  · refine ⟨hc, ?_⟩
    simp only [List.map_map]
    rw [show Bar.value ∘ (fun b : Bar => (⟨b.value, .sorted⟩ : Bar))
        = Bar.value from rfl]
    exact hm
  · exact ⟨hc, hm⟩
  · obtain ⟨f1, f2, f3, f4, f5, f6⟩ := engineApply_frame
      { s with
        time_elapsed := s.time_elapsed + dt
        step_timer := 0
        bars := clearTransient s.bars }
      (s.actions.getD s.cursor doneAction)
    dsimp only
    rw [f1, f3]
    dsimp only
    have hlt : s.cursor < s.actions.length := by omega
    refine ⟨by omega, ?_⟩
    rw [engineApply_bars_value]
    dsimp only
    rw [map_value_clearTransient, take_succ_getD hlt, replay_append, hm]
    rfl

theorem runSteps_mirror (s : EngineState) (dts : List ℚ) (h : BarsMirror s) :
    BarsMirror (runSteps s dts) := by
  induction dts generalizing s with
  | nil => exact h
  | cons dt dts ih => exact ih (step s dt) (step_mirror s dt h)

theorem runSteps_frame (s : EngineState) (dts : List ℚ) :
    (runSteps s dts).actions = s.actions ∧
    (runSteps s dts).initial_values = s.initial_values ∧
    (runSteps s dts).mode = s.mode ∧
    (runSteps s dts).step_delay = s.step_delay ∧
    (runSteps s dts).num_threads = s.num_threads := by
  induction dts generalizing s with
  | nil => exact ⟨rfl, rfl, rfl, rfl, rfl⟩
  | cons dt dts ih =>
    obtain ⟨i1, i2, i3, i4, i5⟩ := ih (step s dt)
    obtain ⟨f1, f2, f3, f4, f5⟩ := step_frame s dt
    exact ⟨i1.trans f1, i2.trans f2, i3.trans f3, i4.trans f4, i5.trans f5⟩

theorem mkEngine_mirror (values : List Nat) : BarsMirror (mkEngine values) := by
  refine ⟨by simp [mkEngine], ?_⟩
  simp only [mkEngine, List.take_zero, replay_nil, List.map_map]
  rw [show Bar.value ∘ (fun v : Nat => (⟨v, .idle⟩ : Bar)) = id from rfl]
  simp

/-! ## Engine: memory and cursor invariants -/

theorem total_memory_cons (t : TempArrayState) (ts : List TempArrayState) :
    total_memory (t :: ts) = t.values.length * 4 + total_memory ts := rfl

theorem total_memory_set_le {arrays : List TempArrayState} {tid : Nat}
    {f : TempArrayState → TempArrayState}
    (hf : ∀ t, (f t).values.length ≤ t.values.length) :
    total_memory (modifyTemp arrays tid f) ≤ total_memory arrays := by
  induction arrays generalizing tid with
  | nil => exact le_refl _
  | cons a as ih =>
    cases tid with
    | zero =>
      show total_memory (f a :: as) ≤ total_memory (a :: as)
      rw [total_memory_cons, total_memory_cons]
      have := hf a
      omega
    | succ n =>
      show total_memory (a :: modifyTemp as n f) ≤ total_memory (a :: as)
      rw [total_memory_cons, total_memory_cons]
      have := @ih n
      omega

theorem total_memory_clear (ts : List TempArrayState) :
    total_memory
      (ts.map (fun t : TempArrayState => { t with values := ([] : List Nat) }))
      = 0 := by
  induction ts with
  | nil => rfl
  | cons t ts ih =>
    rw [List.map_cons, total_memory_cons, ih]
    rfl

theorem le_foldl_max : ∀ (as : List Nat) (a x : Nat),
    x = a ∨ x ∈ as → x ≤ as.foldl max a := by
  intro as
  induction as with
  | nil =>
    intro a x h
    rcases h with rfl | h
    · exact le_refl _
    · cases h
  | cons b bs ih =>
    intro a x h
    show x ≤ bs.foldl max (max a b)
    rcases h with rfl | h
    · exact le_trans (le_max_left x b) (ih (max x b) (max x b) (Or.inl rfl))
    · rcases List.mem_cons.mp h with rfl | h2
      · exact le_trans (le_max_right a x) (ih (max a x) (max a x) (Or.inl rfl))
      · exact ih (max a b) x (Or.inr h2)

theorem le_maxMemory {acts : List Action} {a : Action} (ha : a ∈ acts) :
    a.memory ≤ maxMemory acts := by
  rw [maxMemory]
  cases acts with
  | nil => cases ha
  | cons b bs =>
    rw [show ((b :: bs).map Action.memory).max?
        = some ((bs.map Action.memory).foldl max b.memory) from rfl]
    rw [Option.getD_some]
    rcases List.mem_cons.mp ha with rfl | h2
    · exact le_foldl_max _ _ _ (Or.inl rfl)
    · exact le_foldl_max _ _ _ (Or.inr (List.mem_map_of_mem Action.memory h2))

theorem engineApply_wf {s : EngineState} {a : Action}
    (hmem : a.memory ≤ s.peak_memory)
    (htot : total_memory s.multi_temp_arrays ≤ s.peak_memory) :
    s.peak_memory ≤ (engineApply s a).peak_memory ∧
    (engineApply s a).current_memory ≤ (engineApply s a).peak_memory ∧
    total_memory (engineApply s a).multi_temp_arrays
      ≤ (engineApply s a).peak_memory := by
  have hcm0 : (if s.mode = SortMode.parallel
      then total_memory s.multi_temp_arrays else a.memory) ≤ s.peak_memory := by
    split
    · exact htot
    · exact hmem
  obtain ⟨k, i, j, v, m, ti, th⟩ := a
  cases k
  case compare => exact ⟨le_refl _, hcm0, htot⟩
  case swap => exact ⟨le_refl _, hcm0, htot⟩
  case mergePhase => exact ⟨le_refl _, hcm0, htot⟩
  case tempClear =>
    by_cases hm : s.mode = SortMode.parallel
    · simp only [engineApply, if_pos hm]
      exact ⟨le_refl _, htot,
        le_trans (total_memory_set_le (fun t => by simp)) htot⟩
    · simp only [engineApply, if_neg hm]
      exact ⟨le_refl _, hmem, htot⟩
  case write =>
    by_cases hm : s.mode = SortMode.parallel
    · simp only [engineApply, if_pos hm]
      exact ⟨le_refl _, htot,
        le_trans (total_memory_set_le (fun t => by
          split
          · simp
          · exact le_refl _)) htot⟩
    · simp only [engineApply, if_neg hm]
      split_ifs with h2
      · exact ⟨le_refl _, hmem, htot⟩
      · exact ⟨le_refl _, hmem, htot⟩
  case tempPush =>
    by_cases hm : s.mode = SortMode.parallel
    · simp only [engineApply, if_pos hm]
      split_ifs with hgt
      · exact ⟨le_of_lt hgt, le_refl _, le_refl _⟩
      · exact ⟨le_refl _, le_of_not_lt hgt, le_of_not_lt hgt⟩
    · simp only [engineApply, if_neg hm]
      exact ⟨le_refl _, hmem, htot⟩
  case done =>
    exact ⟨le_refl _, Nat.zero_le _,
      le_trans (le_of_eq (total_memory_clear _)) (Nat.zero_le _)⟩

theorem getD_mem {acts : List Action} {n : Nat} (h : n < acts.length) :
    acts.getD n doneAction ∈ acts := by
  rw [List.getD_eq_getElem _ _ h]
  exact List.getElem_mem _

theorem step_wf {s : EngineState} (dt : ℚ) (h : EngineWF s) :
    EngineWF (step s dt) ∧ s.cursor ≤ (step s dt).cursor ∧
      s.peak_memory ≤ (step s dt).peak_memory := by
  obtain ⟨h1, h2, h3, h4⟩ := h
  rw [EngineWF, step_eq]
  split_ifs with hb ht
  · exact ⟨⟨h1, h2, h3, h4⟩, le_refl _, le_refl _⟩
  · exact ⟨⟨h1, h2, h3, h4⟩, le_refl _, le_refl _⟩
  · have hlt : s.cursor < s.actions.length := by omega
    have ha : s.actions.getD s.cursor doneAction ∈ s.actions := getD_mem hlt
    obtain ⟨w1, w2, w3⟩ := @engineApply_wf
      { s with
        time_elapsed := s.time_elapsed + dt
        step_timer := 0
        bars := clearTransient s.bars }
      (s.actions.getD s.cursor doneAction)
      (h3 _ ha) h4
    obtain ⟨f1, f2, f3, f4, f5, f6⟩ := engineApply_frame
      { s with
        time_elapsed := s.time_elapsed + dt
        step_timer := 0
        bars := clearTransient s.bars }
      (s.actions.getD s.cursor doneAction)
    refine ⟨⟨?_, w2, ?_, w3⟩, by dsimp only; omega, w1⟩
    · show s.cursor + 1
        ≤ (engineApply
            { s with
              time_elapsed := s.time_elapsed + dt
              step_timer := 0
              bars := clearTransient s.bars }
            (s.actions.getD s.cursor doneAction)).actions.length
      rw [f1]
      show s.cursor + 1 ≤ s.actions.length
      omega
    · intro b hbm
      replace hbm : b ∈ (engineApply
          { s with
            time_elapsed := s.time_elapsed + dt
            step_timer := 0
            bars := clearTransient s.bars }
          (s.actions.getD s.cursor doneAction)).actions := hbm
      rw [f1] at hbm
      replace hbm : b ∈ s.actions := hbm
      exact le_trans (h3 b hbm) w1

theorem runSteps_wf (s : EngineState) (dts : List ℚ) (h : EngineWF s) :
    EngineWF (runSteps s dts) ∧ s.cursor ≤ (runSteps s dts).cursor ∧
      s.peak_memory ≤ (runSteps s dts).peak_memory := by
  induction dts generalizing s with
  | nil => exact ⟨h, le_refl _, le_refl _⟩
  | cons dt dts ih =>
    obtain ⟨w1, w2, w3⟩ := step_wf dt h
    obtain ⟨r1, r2, r3⟩ := ih (step s dt) w1
    exact ⟨r1, le_trans w2 r2, le_trans w3 r3⟩

theorem mkEngine_wf (values : List Nat) : EngineWF (mkEngine values) := by
  refine ⟨Nat.zero_le _, Nat.zero_le _, ?_, ?_⟩
  · intro a ha
    exact le_maxMemory ha
  · have h0 : total_memory (List.replicate 8 TempArrayState.default) = 0 := by
      simp [total_memory, TempArrayState.default, List.map_replicate]
    show total_memory (List.replicate 8 TempArrayState.default)
        ≤ maxMemory (merge_sort_actions values)
    rw [h0]
    exact Nat.zero_le _

/-! ## Engine: sequential-mode memory counters -/

/-- In sequential mode: the peak is the construction-time whole-log
maximum, and the current memory is the `memory` field of the most
recently applied action (`0` before the first). The side conditions
(`Done` actions of the log carry memory `0`, cursor in bounds) hold for
every engine this program constructs. -/
def SeqMemInv (s : EngineState) : Prop :=
  s.mode = SortMode.sequential ∧
  s.cursor ≤ s.actions.length ∧
  s.peak_memory = maxMemory s.actions ∧
  (∀ a ∈ s.actions, a.kind = ActionKind.done → a.memory = 0) ∧
  s.current_memory =
    (if s.cursor = 0 then 0
     else (s.actions.getD (s.cursor - 1) doneAction).memory)

theorem engineApply_seq_memory {s : EngineState} {a : Action}
    (hm : s.mode = SortMode.sequential) :
    (engineApply s a).peak_memory = s.peak_memory ∧
    (engineApply s a).current_memory
      = (if a.kind = ActionKind.done then 0 else a.memory) := by
  have hm' : ¬ s.mode = SortMode.parallel := by
    rw [hm]
    simp
  obtain ⟨k, i, j, v, m, ti, th⟩ := a
  cases k <;>
    (simp [engineApply, if_neg hm']
     try split_ifs
     all_goals simp)

theorem step_seqmem {s : EngineState} (dt : ℚ) (h : SeqMemInv s) :
    SeqMemInv (step s dt) := by
  obtain ⟨h1, h2, h3, h4, h5⟩ := h
  rw [step_eq]
  by_cases hb : s.cursor ≥ s.actions.length
  case pos =>
    rw [if_pos hb]
    exact ⟨h1, h2, h3, h4, h5⟩
  case neg =>
  rw [if_neg hb]
  by_cases ht : s.step_timer + dt < s.step_delay
  case pos =>
    rw [if_pos ht]
    exact ⟨h1, h2, h3, h4, h5⟩
  case neg =>
    rw [if_neg ht]
    have hlt : s.cursor < s.actions.length := by omega
    obtain ⟨f1, f2, f3, f4, f5, f6⟩ := engineApply_frame
      { s with
        time_elapsed := s.time_elapsed + dt
        step_timer := 0
        bars := clearTransient s.bars }
      (s.actions.getD s.cursor doneAction)
    obtain ⟨m1, m2⟩ := @engineApply_seq_memory
      { s with
        time_elapsed := s.time_elapsed + dt
        step_timer := 0
        bars := clearTransient s.bars }
      (s.actions.getD s.cursor doneAction)
      h1
    refine ⟨?_, ?_, ?_, ?_, ?_⟩
    · show (engineApply _ _).mode = SortMode.sequential
      rw [f4]
      exact h1
    · show s.cursor + 1 ≤ (engineApply _ _).actions.length
      rw [f1]
      show s.cursor + 1 ≤ s.actions.length
      omega
    · show (engineApply _ _).peak_memory = maxMemory (engineApply _ _).actions
      rw [m1, f1]
      exact h3
    · intro b hbm
      replace hbm : b ∈ (engineApply
          { s with
            time_elapsed := s.time_elapsed + dt
            step_timer := 0
            bars := clearTransient s.bars }
          (s.actions.getD s.cursor doneAction)).actions := hbm
      rw [f1] at hbm
      exact h4 b hbm
    · show (engineApply _ _).current_memory =
        (if s.cursor + 1 = 0 then 0
         else ((engineApply _ _).actions.getD (s.cursor + 1 - 1) doneAction).memory)
      rw [m2, f1, if_neg (by omega : ¬ s.cursor + 1 = 0)]
      rw [show s.cursor + 1 - 1 = s.cursor from by omega]
      show _ = (s.actions.getD s.cursor doneAction).memory
      split
      · rename_i hdone
        exact (h4 _ (getD_mem hlt) hdone).symm
      · rfl

theorem runSteps_seqmem (s : EngineState) (dts : List ℚ) (h : SeqMemInv s) :
    SeqMemInv (runSteps s dts) := by
  induction dts generalizing s with
  | nil => exact h
  | cons dt dts ih => exact ih (step s dt) (step_seqmem dt h)

theorem merge_sort_actions_done_memory (values : List Nat) :
    ∀ a ∈ merge_sort_actions values, a.kind = ActionKind.done →
      a.memory = 0 := by
  intro a ha hk
  rw [merge_sort_actions] at ha
  rcases List.mem_append.mp ha with h1 | h2
  · exact absurd hk (mergeSortRec_no_done a h1)
  · simp only [List.mem_singleton] at h2
    subst h2
    rfl

theorem mkEngine_seqmem (values : List Nat) : SeqMemInv (mkEngine values) :=
  ⟨rfl, Nat.zero_le _, rfl, merge_sort_actions_done_memory values, rfl⟩

theorem engine_bars_mirror (values : List Nat) (dts : List ℚ) :
    (runSteps (mkEngine values) dts).bars.map Bar.value
      = replay ((runSteps (mkEngine values) dts).actions.take
          (runSteps (mkEngine values) dts).cursor) values := by
  have h := runSteps_mirror (mkEngine values) dts (mkEngine_mirror values)
  have hin := (runSteps_frame (mkEngine values) dts).2.1
  rw [h.2, hin]
  rfl

/-! ## Engine: `Write` against an empty sequential temp region -/

theorem engineApply_write_empty {s : EngineState} {a : Action}
    (hm : s.mode = SortMode.sequential)
    (hk : a.kind = ActionKind.write)
    (hte : s.temp_array.values = []) :
    (engineApply s a).temp_array.values = [] ∧
    (engineApply s a).bars = s.bars.set a.i ⟨a.value, BarState.swap⟩ ∧
    (engineApply s a).cursor = s.cursor := by
  have hm' : ¬ s.mode = SortMode.parallel := by
    rw [hm]
    simp
  obtain ⟨k, i, j, v, m, ti, th⟩ := a
  simp only [Action.kind] at hk
  subst hk
  simp [engineApply, if_neg hm', hte]

theorem step_write_empty {s : EngineState} (dt : ℚ)
    (hm : s.mode = SortMode.sequential)
    (hte : s.temp_array.values = [])
    (hc : s.cursor < s.actions.length)
    (hk : (s.actions.getD s.cursor doneAction).kind = ActionKind.write)
    (ht : ¬ s.step_timer + dt < s.step_delay) :
    (step s dt).cursor = s.cursor + 1 ∧
    (step s dt).temp_array.values = [] ∧
    (step s dt).actions = s.actions ∧
    (step s dt).bars = (clearTransient s.bars).set
      (s.actions.getD s.cursor doneAction).i
      ⟨(s.actions.getD s.cursor doneAction).value, BarState.swap⟩ := by
  rw [step_eq, if_neg (by omega : ¬ s.cursor ≥ s.actions.length), if_neg ht]
  obtain ⟨w1, w2, w3⟩ := @engineApply_write_empty
    { s with
      time_elapsed := s.time_elapsed + dt
      step_timer := 0
      bars := clearTransient s.bars }
    (s.actions.getD s.cursor doneAction)
    hm hk hte
  obtain ⟨f1, f2, f3, f4, f5, f6⟩ := engineApply_frame
    { s with
      time_elapsed := s.time_elapsed + dt
      step_timer := 0
      bars := clearTransient s.bars }
    (s.actions.getD s.cursor doneAction)
  exact ⟨rfl, w1, f1, w2⟩

theorem phase2Outer_pos {arr : List Nat} {n step level T : Nat} {hs : 0 < step}
    (h : step < n) :
    phase2Outer arr n step level T hs =
      (⟨.mergePhase, 0, 0, level, 0, 0, 0⟩ ::
        (interleave_actions (phase2Inner arr n step 0 0 T hs).1 ++
          (phase2Outer (phase2Inner arr n step 0 0 T hs).2 n (step * 2)
            (level + 1) T (by omega)).1),
       (phase2Outer (phase2Inner arr n step 0 0 T hs).2 n (step * 2)
         (level + 1) T (by omega)).2) := by
  rw [phase2Outer, dif_pos h]

theorem phase2Outer_neg {arr : List Nat} {n step level T : Nat} {hs : 0 < step}
    (h : ¬ step < n) :
    phase2Outer arr n step level T hs = ([], arr) := by
  rw [phase2Outer, dif_neg h]

/-! ## The conservation counterexample scenario `[5, 3]` -/

theorem merge_sort_actions_53 : merge_sort_actions [5, 3] = c2acts := by
  simp +decide [merge_sort_actions, mergeSortRec, mergeAux, mergeLoopBoth,
    drainLoop, writeBack, natLe, doneAction, slice, splice, swapL, c2acts]

theorem mkEngine_53 : mkEngine [5, 3] = c2E0 := by
  simp only [mkEngine, merge_sort_actions_53]
  rfl

theorem step_53 : step c2E0 1 = c2E1 := by
  rw [step_eq, if_neg (by decide), if_neg (by norm_num [c2E0])]
  simp +decide [c2E0, c2E1, c2acts, engineApply, markBar, clearTransient,
    AnimationInfo.default, TempArrayState.default]

/-! # The claims -/

/-- C1: for every input and every generator (bubble, sequential merge,
parallel merge with any task count), replaying the produced ActionLog
against a copy of the input (Swap exchanges `i`,`j`; Write stores the
carried value at `i`; other kinds are no-ops) yields a non-descending
permutation of the input. -/
theorem C1_sorting (values : List Nat) (T : Nat) :
    (List.Sorted (· ≤ ·) (replay (bubble_sort_actions values) values) ∧
      (replay (bubble_sort_actions values) values).Perm values) ∧
    (List.Sorted (· ≤ ·) (replay (merge_sort_actions values) values) ∧
      (replay (merge_sort_actions values) values).Perm values) ∧
    (List.Sorted (· ≤ ·) (replay (parallel_merge_sort_actions values T) values) ∧
      (replay (parallel_merge_sort_actions values T) values).Perm values) := by
  refine ⟨bubble_sort_actions_replay values, ?_, ?_⟩
  · rw [merge_sort_actions_replay]
    exact ⟨msList_sorted values, msList_perm values⟩
  · obtain ⟨p1, p2, _, _⟩ := parallel_main values T
    exact ⟨p1, p2⟩

/-- C2 counterexample: two engine steps into the `[5, 3]` sequential
merge replay, the bars still hold `{5, 3}` but the temp region already
holds a copy of `3` (`TempPush` copies, it does not move), so the
bars-plus-temps multiset exceeds the input multiset. -/
theorem C2_counterexample :
    ¬ (barsValues (runSteps (mkEngine [5, 3]) [1, 1])
        + tempValues (runSteps (mkEngine [5, 3]) [1, 1])
      = barsValues (mkEngine [5, 3]) + tempValues (mkEngine [5, 3])) := by
  rw [show runSteps (mkEngine [5, 3]) [1, 1]
      = step (step (mkEngine [5, 3]) 1) 1 from rfl,
    mkEngine_53, step_53, step_eq, if_neg (by decide),
    if_neg (by norm_num [c2E1])]
  simp +decide [c2E0, c2E1, c2acts, engineApply, markBar, clearTransient,
    barsValues, tempValues, total_memory, TempArrayState.default,
    AnimationInfo.default, List.map_replicate]

/-- C2 (corrected): conservation of the bars-plus-temps multiset fails
at interior cursor positions; what does hold at every cursor position is
that the bar values are exactly the replay of the consumed prefix of
the log against the input (so they are a permutation of the input again
once the log, whose replay is a sort, has been fully consumed). -/
theorem C2_amended (values : List Nat) (dts : List ℚ) :
    (runSteps (mkEngine values) dts).bars.map Bar.value
      = replay ((runSteps (mkEngine values) dts).actions.take
          (runSteps (mkEngine values) dts).cursor) values :=
  engine_bars_mirror values dts

/-- C3 counterexample: the bubble generator emits one `Done` per outer
pass — two of them for `[2, 1]` — and produces the empty log, not
`[Done]`, for `N = 0`. -/
theorem C3_counterexample :
    countKind ActionKind.done (bubble_sort_actions [2, 1]) = 2 ∧
    bubble_sort_actions [] = [] := by
  constructor
  · have h := bubbleOuter_count_done [2, 1] 0 2
    simpa [bubble_sort_actions] using h
  · rw [bubble_sort_actions, bubbleOuter]
    simp

/-- C3 (corrected): both merge generators emit exactly one `Done`,
always last, with `[Done]` for `N = 0`; the bubble generator instead
emits exactly `N` `Done` actions (one per outer pass), the last action
still being a `Done` when `N > 0`, and the empty log when `N = 0`. -/
theorem C3_amended (values : List Nat) (T : Nat) :
    countKind ActionKind.done (merge_sort_actions values) = 1 ∧
    (merge_sort_actions values).getLast? = some doneAction ∧
    merge_sort_actions [] = [doneAction] ∧
    countKind ActionKind.done (parallel_merge_sort_actions values T) = 1 ∧
    (parallel_merge_sort_actions values T).getLast? = some doneAction ∧
    parallel_merge_sort_actions [] T = [doneAction] ∧
    countKind ActionKind.done (bubble_sort_actions values) = values.length ∧
    (values ≠ [] → ∃ d, (bubble_sort_actions values).getLast? = some d ∧
      d.kind = ActionKind.done) := by
  obtain ⟨m1, m2, m3⟩ := merge_sort_actions_done values
  obtain ⟨_, _, p3, p4⟩ := parallel_main values T
  refine ⟨m1, m2, m3, p3, p4, rfl, ?_, ?_⟩
  · have h := bubbleOuter_count_done values 0 values.length
    simpa [bubble_sort_actions] using h
  · intro hne
    have hlen : 0 < values.length := List.length_pos.mpr hne
    have h := bubbleOuter_last_done values 0 values.length hlen
    simpa [bubble_sort_actions] using h

theorem C3_amended_witness :
    ([2, 1] : List Nat) ≠ [] ∧
    (∃ d, (bubble_sort_actions [2, 1]).getLast? = some d ∧
      d.kind = ActionKind.done) :=
  ⟨by decide, (C3_amended [2, 1] 4).2.2.2.2.2.2.2 (by decide)⟩

/-- C4: the interleaver is the round-robin merge — its output is a
permutation of the flattened inputs (every action exactly once, length
the sum of the input lengths), each round takes the head of every
non-exhausted log in index order (the recursion equation), and each
input log's actions appear in the output in their original relative
order (stated via filters that isolate one log's actions). -/
theorem C4_interleaver {α : Type} (ls : List (List α)) :
    (interleave_actions ls).Perm ls.flatten ∧
    (interleave_actions ls).length = (ls.map List.length).sum ∧
    (interleave_actions ls
      = if ls.all List.isEmpty then []
        else ls.filterMap List.head? ++ interleave_actions (ls.map List.tail)) ∧
    (∀ (p : α → Bool) (A B : List (List α)) (l : List α),
      ls = A ++ l :: B →
      (∀ l' ∈ A, ∀ a ∈ l', p a = false) →
      (∀ l' ∈ B, ∀ a ∈ l', p a = false) →
      (interleave_actions ls).filter p = l.filter p) := by
  refine ⟨interleave_perm ls, interleave_length ls, ?_, ?_⟩
  · rw [interleave_actions]
    split <;> rfl
  · intro p A B l hls hA hB
    exact interleave_filter p ls A B l hls hA hB

theorem C4_interleaver_witness :
    (interleave_actions [[1, 2], [3]]).filter (fun a => decide (3 ≤ a))
      = [3].filter (fun a => decide (3 ≤ a)) :=
  (C4_interleaver [[1, 2], [3]]).2.2.2 (fun a => decide (3 ≤ a)) [[1, 2]] []
    [3] rfl (by decide) (by decide)

/-- C5 (corrected): the engine does NOT treat a `Write` against an
empty sequential temp region as fatal — there is no failure path at
all: it silently skips the pop, still writes the bar, and advances the
cursor, continuing the replay. -/
theorem C5_write_empty_continues (s : EngineState) (dt : ℚ)
    (hm : s.mode = SortMode.sequential)
    (hte : s.temp_array.values = [])
    (hc : s.cursor < s.actions.length)
    (hk : (s.actions.getD s.cursor doneAction).kind = ActionKind.write)
    (ht : ¬ s.step_timer + dt < s.step_delay) :
    (step s dt).cursor = s.cursor + 1 ∧
    (step s dt).temp_array.values = [] ∧
    (step s dt).actions = s.actions ∧
    (step s dt).bars = (clearTransient s.bars).set
      (s.actions.getD s.cursor doneAction).i
      ⟨(s.actions.getD s.cursor doneAction).value, BarState.swap⟩ :=
  step_write_empty dt hm hte hc hk ht

theorem C5_write_empty_continues_witness :
    (c5E.mode = SortMode.sequential ∧ c5E.temp_array.values = [] ∧
      c5E.cursor < c5E.actions.length ∧
      (c5E.actions.getD c5E.cursor doneAction).kind = ActionKind.write ∧
      ¬ c5E.step_timer + 1 < c5E.step_delay) ∧
    ((step c5E 1).cursor = c5E.cursor + 1 ∧
      (step c5E 1).temp_array.values = [] ∧
      (step c5E 1).actions = c5E.actions ∧
      (step c5E 1).bars = (clearTransient c5E.bars).set
        (c5E.actions.getD c5E.cursor doneAction).i
        ⟨(c5E.actions.getD c5E.cursor doneAction).value, BarState.swap⟩) := by
  have h5 : ¬ c5E.step_timer + 1 < c5E.step_delay := by norm_num [c5E]
  exact ⟨⟨rfl, rfl, by decide, rfl, h5⟩,
    C5_write_empty_continues c5E 1 rfl rfl (by decide) rfl h5⟩

/-- C5 counterexample: a concrete engine whose next action is a `Write`
while its temp region is empty — the step completes normally (cursor
advances, the bar is written), instead of failing fast. -/
theorem C5_counterexample :
    (step c5E 1).cursor = 1 ∧ (step c5E 1).temp_array.values = [] ∧
    (step c5E 1).bars = [⟨7, BarState.swap⟩] := by
  rw [step_eq, if_neg (by decide), if_neg (by norm_num [c5E])]
  refine ⟨rfl, ?_, ?_⟩ <;>
    simp +decide [c5E, engineApply, clearTransient, markBar,
      TempArrayState.default]

/-- C6 (corrected): degenerate configurations are not rejected anywhere
— a size-0 construction quietly produces the one-action `[Done]` log,
and a task count of 0 is silently clamped to 1 (the generated log is
identical to the one for a single task). -/
theorem C6_no_config_rejection (values : List Nat) :
    (mkEngine []).actions = [doneAction] ∧
    parallel_merge_sort_actions values 0 = parallel_merge_sort_actions values 1 := by
  constructor
  · show merge_sort_actions [] = [doneAction]
    exact (merge_sort_actions_done []).2.2
  · by_cases hn : values.length = 0
    · simp only [parallel_merge_sort_actions]
      rw [dif_pos hn, dif_pos hn]
    · simp only [parallel_merge_sort_actions]
      rw [dif_neg hn, dif_neg hn]
      have hT : (0 : Nat) ⊓ values.length ⊔ 1 = 1 ⊓ values.length ⊔ 1 := by
        omega
      simp only [hT]

/-- C6 counterexample: `Engine::new` with size 0 yields a working
engine whose log is `[Done]`, and the parallel generator happily
produces a complete log for task count 0 — no configuration error is
ever reported. -/
theorem C6_counterexample :
    (mkEngine []).actions = [doneAction] ∧
    countKind ActionKind.done (parallel_merge_sort_actions [3, 1] 0) = 1 :=
  ⟨(merge_sort_actions_done []).2.2, (parallel_main [3, 1] 0).2.2.1⟩

/-- C7: the per-tick contract of `Engine::step` while the cursor is in
bounds — below the interval only the two timers accumulate (no action
is applied, everything else unchanged); at or above it, the accumulator
resets, non-Sorted bars revert to Idle (`clearTransient`), exactly the
action at the cursor is applied, and the cursor advances by one. -/
theorem C7_step_contract (s : EngineState) (dt : ℚ)
    (h : s.cursor < s.actions.length) :
    (s.step_timer + dt < s.step_delay →
      step s dt = { s with time_elapsed := s.time_elapsed + dt
                           step_timer := s.step_timer + dt }) ∧
    (¬ s.step_timer + dt < s.step_delay →
      step s dt =
        { engineApply
            { s with time_elapsed := s.time_elapsed + dt
                     step_timer := 0
                     bars := clearTransient s.bars }
            (s.actions.getD s.cursor doneAction)
          with cursor := s.cursor + 1 } ∧
      (step s dt).cursor = s.cursor + 1) := by
  constructor
  · intro ht
    rw [step_eq, if_neg (by omega), if_pos ht]
  · intro ht
    rw [step_eq, if_neg (by omega), if_neg ht]
    exact ⟨rfl, rfl⟩

theorem C7_step_contract_witness :
    (mkEngine [2, 1]).cursor < (mkEngine [2, 1]).actions.length ∧
    step (mkEngine [2, 1]) (1 / 2)
      = { (mkEngine [2, 1]) with
          time_elapsed := (mkEngine [2, 1]).time_elapsed + 1 / 2
          step_timer := (mkEngine [2, 1]).step_timer + 1 / 2 } ∧
    (step (mkEngine [2, 1]) 1).cursor = (mkEngine [2, 1]).cursor + 1 := by
  have hc : (mkEngine [2, 1]).cursor < (mkEngine [2, 1]).actions.length := by
    simp [mkEngine, merge_sort_actions]
  exact ⟨hc,
    (C7_step_contract (mkEngine [2, 1]) (1 / 2) hc).1 (by norm_num [mkEngine]),
    ((C7_step_contract (mkEngine [2, 1]) 1 hc).2 (by norm_num [mkEngine])).2⟩

/-- C8: across any run of `step` calls from a well-formed engine state,
the invariants hold at the end: the cursor never decreased below its
start and never exceeds the log length, the peak memory never
decreased, and the peak dominates the current memory. -/
theorem C8_monotonicity (s : EngineState) (dts : List ℚ) (h : EngineWF s) :
    EngineWF (runSteps s dts) ∧
    s.cursor ≤ (runSteps s dts).cursor ∧
    (runSteps s dts).cursor ≤ (runSteps s dts).actions.length ∧
    s.peak_memory ≤ (runSteps s dts).peak_memory ∧
    (runSteps s dts).current_memory ≤ (runSteps s dts).peak_memory := by
  obtain ⟨w1, w2, w3⟩ := runSteps_wf s dts h
  exact ⟨w1, w2, w1.1, w3, w1.2.1⟩

theorem C8_monotonicity_witness :
    EngineWF (runSteps (mkEngine [2, 1]) [1, 1]) ∧
    (mkEngine [2, 1]).cursor ≤ (runSteps (mkEngine [2, 1]) [1, 1]).cursor ∧
    (runSteps (mkEngine [2, 1]) [1, 1]).cursor
      ≤ (runSteps (mkEngine [2, 1]) [1, 1]).actions.length ∧
    (mkEngine [2, 1]).peak_memory
      ≤ (runSteps (mkEngine [2, 1]) [1, 1]).peak_memory ∧
    (runSteps (mkEngine [2, 1]) [1, 1]).current_memory
      ≤ (runSteps (mkEngine [2, 1]) [1, 1]).peak_memory :=
  C8_monotonicity (mkEngine [2, 1]) [1, 1] (mkEngine_wf [2, 1])

/-- C9: for a parallel merge sort over 8 values with task count 4, the
chunk size is 2 and the log carries exactly two `MergePhase` markers,
levels 1 then 2 in that order, both before the final `Done`; replaying
the full log sorts the input. -/
theorem C9_parallel_8_4 (values : List Nat) (h : values.length = 8) :
    (8 + 4 - 1) / 4 = 2 ∧
    (∃ A B C : List Action,
      parallel_merge_sort_actions values 4 =
        A ++ ⟨.mergePhase, 0, 0, 1, 0, 0, 0⟩ ::
          (B ++ ⟨.mergePhase, 0, 0, 2, 0, 0, 0⟩ :: (C ++ [doneAction])) ∧
      countKind ActionKind.mergePhase (A ++ B ++ C) = 0 ∧
      countKind ActionKind.done (A ++ B ++ C) = 0) ∧
    List.Sorted (· ≤ ·) (replay (parallel_merge_sort_actions values 4) values) := by
  refine ⟨by norm_num, ?_, (parallel_main values 4).1⟩
  have hlog : parallel_merge_sort_actions values 4 =
      interleave_actions (chunkLoop values 8 2 0 4).1 ++
        (phase2Outer (chunkLoop values 8 2 0 4).2 8 2 1 4 (by norm_num)).1 ++
        [doneAction] := by
    simp only [parallel_merge_sort_actions, h]
    rw [dif_neg (by norm_num : ¬ (8 : Nat) = 0)]
    simp only [show (4 : Nat) ⊓ 8 ⊔ 1 = 4 by norm_num,
      show ((8 : Nat) + 4 - 1) / 4 = 2 by norm_num]
  obtain ⟨c1, c2p, c3, c4, c5, c6, c7, c8⟩ :=
    chunkLoop_main values 8 2 0 4 (by norm_num) h (by norm_num)
  have hsortc : ∀ k, List.Sorted (· ≤ ·)
      (slice (chunkLoop values 8 2 0 4).2 (0 + k * 2) (min (0 + k * 2 + 2) 8)) := by
    intro k
    rw [Nat.zero_add]
    have hk := c4 k (Nat.zero_le k)
    rw [show (k + 1) * 2 = k * 2 + 2 by ring] at hk
    exact hk
  obtain ⟨i1, i2, i3, i4, i5, i6, i7, i8⟩ :=
    phase2Inner_main (chunkLoop values 8 2 0 4).2 8 2 0 0 4 (by norm_num) c1 hsortc
  have hsortr : ∀ k, List.Sorted (· ≤ ·)
      (slice (phase2Inner (chunkLoop values 8 2 0 4).2 8 2 0 0 4 (by norm_num)).2
        (0 + k * 4) (min (0 + k * 4 + 4) 8)) := by
    intro k
    have hk := i4 k
    rw [show (2 * 2 : Nat) = 4 by norm_num] at hk
    exact hk
  obtain ⟨j1, j2, j3, j4, j5, j6, j7, j8⟩ :=
    phase2Inner_main (phase2Inner (chunkLoop values 8 2 0 4).2 8 2 0 0 4
      (by norm_num)).2 8 4 0 0 4 (by norm_num) i1 hsortr
  refine ⟨interleave_actions (chunkLoop values 8 2 0 4).1,
    interleave_actions (phase2Inner (chunkLoop values 8 2 0 4).2 8 2 0 0 4
      (by norm_num)).1,
    interleave_actions (phase2Inner (phase2Inner (chunkLoop values 8 2 0 4).2
      8 2 0 0 4 (by norm_num)).2 8 4 0 0 4 (by norm_num)).1, ?_, ?_, ?_⟩
  · rw [hlog, phase2Outer_pos (by norm_num : (2 : Nat) < 8)]
    dsimp only
    simp only [show (2 * 2 : Nat) = 4 by norm_num]
    rw [phase2Outer_pos (by norm_num : (4 : Nat) < 8)]
    dsimp only
    simp only [show (4 * 2 : Nat) = 8 by norm_num]
    rw [phase2Outer_neg (by norm_num : ¬ (8 : Nat) < 8)]
    simp [List.append_assoc]
  · apply countKind_eq_zero
    intro a ha
    rcases List.mem_append.mp ha with ha2 | hc
    · rcases List.mem_append.mp ha2 with haa | hb
      · obtain ⟨L, hL, haL⟩ :=
          List.mem_flatten.mp ((interleave_perm _).mem_iff.mp haa)
        exact (c6 L hL a haL).2.1
      · obtain ⟨L, hL, haL⟩ :=
          List.mem_flatten.mp ((interleave_perm _).mem_iff.mp hb)
        exact (i6 L hL a haL).2.1
    · obtain ⟨L, hL, haL⟩ :=
        List.mem_flatten.mp ((interleave_perm _).mem_iff.mp hc)
      exact (j6 L hL a haL).2.1
  · apply countKind_eq_zero
    intro a ha
    rcases List.mem_append.mp ha with ha2 | hc
    · rcases List.mem_append.mp ha2 with haa | hb
      · obtain ⟨L, hL, haL⟩ :=
          List.mem_flatten.mp ((interleave_perm _).mem_iff.mp haa)
        exact (c6 L hL a haL).1
      · obtain ⟨L, hL, haL⟩ :=
          List.mem_flatten.mp ((interleave_perm _).mem_iff.mp hb)
        exact (i6 L hL a haL).1
    · obtain ⟨L, hL, haL⟩ :=
        List.mem_flatten.mp ((interleave_perm _).mem_iff.mp hc)
      exact (j6 L hL a haL).1

theorem C9_parallel_8_4_witness :
    ([8, 7, 6, 5, 4, 3, 2, 1] : List Nat).length = 8 ∧
    List.Sorted (· ≤ ·)
      (replay (parallel_merge_sort_actions [8, 7, 6, 5, 4, 3, 2, 1] 4)
        [8, 7, 6, 5, 4, 3, 2, 1]) :=
  ⟨by decide, (C9_parallel_8_4 [8, 7, 6, 5, 4, 3, 2, 1] (by decide)).2.2⟩

/-- C10: in sequential mode the peak memory is pinned at construction
to the maximum `memory` field over the whole log and stepping never
changes it, while the current memory always reads back the `memory`
field of the most recently applied action (0 before any). -/
theorem C10_sequential_memory (values : List Nat) (dts : List ℚ) :
    (runSteps (mkEngine values) dts).peak_memory
      = maxMemory (merge_sort_actions values) ∧
    (runSteps (mkEngine values) dts).current_memory
      = (if (runSteps (mkEngine values) dts).cursor = 0 then 0
         else ((runSteps (mkEngine values) dts).actions.getD
            ((runSteps (mkEngine values) dts).cursor - 1) doneAction).memory) := by
  obtain ⟨m1, m2, m3, m4, m5⟩ := runSteps_seqmem (mkEngine values) dts
    (mkEngine_seqmem values)
  refine ⟨?_, m5⟩
  rw [m3, (runSteps_frame (mkEngine values) dts).1]
  rfl

end Algo
